import Mathlib

/-
Verification of the LSIF graph-construction engine (`src/lsif/__init__.py`).

The embedding mirrors the `index` function: it threads the identifier
counter (the class-level generator `BaseNode.__id_generator`, which starts
at 1 at process start and is never reset between runs), the symbol table
`names_to_result_sets`, the document-path cache, and the list of emitted
records through explicit state.  Each serialized record of the Python code
becomes one constructor of `Record`; the metadata record, which is
serialized without an `id` field (`IGNORE_ID`), is the one constructor
without an id argument.  Diagnostics printed on the recoverable skip paths
become entries of a `logs` list.  `DefEvent`/`LinkEvent` record the symbol
table registrations performed by the definition pass and the successful
lookups performed by the reference pass; their `rs` fields are by
construction the `inV` of the corresponding Next edges.
-/

namespace Lsif

/-- A source position, mirroring `lsif.types.Position` (line, character). -/
structure Pos where
  line : Nat
  character : Nat
  deriving DecidableEq

/-- A source span, mirroring `lsif.types.Range` (`start`, `end`; the second
field is called `stop` here because `end` is a Lean keyword). -/
structure Span where
  start : Pos
  stop : Pos
  deriving DecidableEq

/-- A definition occurrence as yielded by `script.get_names(definitions=True)`:
jedi's `full_name` (possibly absent), `name`, docstring and span. -/
structure DefOcc where
  fullName : Option String
  name : String
  docstring : String
  span : Span
  deriving DecidableEq

/-- One candidate definition returned by `jedi_ref.goto(follow_imports=True)`;
only its `full_name` is consulted by the code. -/
structure Candidate where
  fullName : Option String
  deriving DecidableEq

/-- A reference occurrence: its span and the (possibly empty) candidate list
that `goto` would return for it. -/
structure RefOcc where
  span : Span
  candidates : List Candidate
  deriving DecidableEq

/-- One source unit produced by `project_path.glob`: its absolute path
(the key of `module_path_to_document_node`), its URI, and the definition
and reference occurrences jedi yields for it. -/
structure SourceFile where
  path : String
  uri : String
  defs : List DefOcc
  refs : List RefOcc
  deriving DecidableEq

/-- One line of the emitted LSIF dump.  Each constructor corresponds to one
node class of the Python code; the first `Nat` argument is the record's
`id`, except for `metaData` which is serialized without an id
(`MetadataNode` is built with `IGNORE_ID`). -/
inductive Record where
  | metaData (projectRoot : String)
  | project (id : Nat)
  | document (id : Nat) (uri : String)
  | resultSet (id : Nat)
  | range (id : Nat) (start : Pos) (stop : Pos) (document : Nat)
  | hoverResult (id : Nat) (contents : String)
  | definitionResult (id : Nat)
  | referenceResult (id : Nat)
  | next (id : Nat) (inV : Nat) (outV : Nat)
  | hoverEdge (id : Nat) (inV : Nat) (outV : Nat)
  | definitionEdge (id : Nat) (inV : Nat) (outV : Nat)
  | referencesEdge (id : Nat) (inV : Nat) (outV : Nat)
  | item (id : Nat) (document : Nat) (inVs : List Nat) (outV : Nat)
  | contains (id : Nat) (inVs : List Nat) (outV : Nat)
  deriving DecidableEq

/-- The id a record is serialized with; `none` exactly for the metadata
sentinel. -/
def Record.idOf : Record → Option Nat
  | .metaData _ => none
  | .project i => some i
  | .document i _ => some i
  | .resultSet i => some i
  | .range i _ _ _ => some i
  | .hoverResult i _ => some i
  | .definitionResult i => some i
  | .referenceResult i => some i
  | .next i _ _ => some i
  | .hoverEdge i _ _ => some i
  | .definitionEdge i _ _ => some i
  | .referencesEdge i _ _ => some i
  | .item i _ _ _ => some i
  | .contains i _ _ => some i

/-- The ids an edge record mentions (its `inV`/`outV`/`inVs`/`document`
fields); vertices mention nothing. -/
def Record.mentions : Record → List Nat
  | .next _ a b => [a, b]
  | .hoverEdge _ a b => [a, b]
  | .definitionEdge _ a b => [a, b]
  | .referencesEdge _ a b => [a, b]
  | .item _ d ins o => d :: o :: ins
  | .contains _ ins o => o :: ins
  | _ => []

/-- Whether a record is a Contains edge. -/
def Record.isContains : Record → Bool
  | .contains _ _ _ => true
  | _ => false

/-- Whether a record is a ResultSet vertex. -/
def Record.isResultSet : Record → Bool
  | .resultSet _ => true
  | _ => false

/-- The ids, in emission order, of the records of a trace. -/
def idsOf (recs : List Record) : List Nat :=
  recs.filterMap Record.idOf

/-- The ids of the Range records of a trace, in emission order. -/
def rangeIds (recs : List Record) : List Nat :=
  recs.filterMap fun r =>
    match r with
    | .range i _ _ _ => some i
    | _ => none

/-- A Python `dict` with `String` keys and `Nat` values, as an
insertion-ordered association list; used for `names_to_result_sets` and
`module_path_to_document_node`. -/
abbrev Table := List (String × Nat)

/-- `d[n] = v` on a Python dict: replace the entry for `n` in place if
present, otherwise append it. -/
def dictInsert : Table → String → Nat → Table
  | [], n, v => [(n, v)]
  | p :: t, n, v => if p.fst = n then (n, v) :: t else p :: dictInsert t n v

/-- `d.get(n)` / `n in d` on a Python dict: the value of the entry for `n`,
if any. -/
def stLookup : Table → String → Option Nat
  | [], _ => none
  | p :: t, n => if p.fst = n then some p.snd else stLookup t n

/-- The values held by a table. -/
def tvals (t : Table) : List Nat :=
  t.map Prod.snd

/-- `jedi_def.full_name or jedi_def.name`: the qualified name the code
registers a definition under, with Python truthiness (an absent or empty
`full_name` falls back to `name`).  The empty string stands for "no
derivable name". -/
def derivedName (d : DefOcc) : String :=
  match d.fullName with
  | some s => if s = "" then d.name else s
  | none => d.name

/-- A symbol-table registration performed by the definition pass:
`names_to_result_sets[name] = result_set`.  `rs` is the ResultSet id, which
is also the `inV` of the Next edge emitted for the definition. -/
structure DefEvent where
  name : String
  rs : Nat
  deriving DecidableEq

/-- A successful lookup performed by the reference pass:
`names_to_result_sets[full_name]`.  `rs` is the ResultSet id found, which is
also the `inV` of the Next edge emitted for the reference. -/
structure LinkEvent where
  name : String
  rs : Nat
  deriving DecidableEq

/-- Output of processing one definition occurrence that did not trip the
`assert def_name` guard. -/
structure DefOk where
  table : Table
  counter : Nat
  recs : List Record
  rangeId : Nat
  ev : DefEvent
  deriving DecidableEq

/-- The eight records written for one definition occurrence, in the order
`index` writes them: ResultSet, Range, Next, HoverResult, hover edge,
DefinitionResult, definition edge, Item.  The ResultSet is allocated first
(id `c`), then the Range (id `c + 1`), then each edge or result right
before its write. -/
def defRecords (doc : Nat) (c : Nat) (d : DefOcc) : List Record :=
  [Record.resultSet c,
   Record.range (c + 1) d.span.start d.span.stop doc,
   Record.next (c + 2) c (c + 1),
   Record.hoverResult (c + 3) d.docstring,
   Record.hoverEdge (c + 4) (c + 3) c,
   Record.definitionResult (c + 5),
   Record.definitionEdge (c + 6) (c + 5) c,
   Record.item (c + 7) doc [c + 1] (c + 5)]

/-- One iteration of the definition loop of `index` (lines 310-341).  A
`ResultSetNode` is allocated first; if `full_name or name` is falsy the
`assert` aborts the run (`.error` carries the counter after that one
allocation).  Otherwise the table is updated and the eight records of the
occurrence are emitted in the order the code writes them. -/
def processDef (doc : Nat) (st : Table) (c : Nat) (d : DefOcc) : Except Nat DefOk :=
  let n := derivedName d
  if n = "" then .error (c + 1)
  else .ok ⟨dictInsert st n c, c + 8, defRecords doc c d, c + 1, ⟨n, c⟩⟩

/-- Output of processing one reference occurrence (never fatal). -/
structure RefOut where
  counter : Nat
  recs : List Record
  logs : List String
  rangeId : Nat
  link : Option LinkEvent
  deriving DecidableEq

/-- The five records written for one reference occurrence that resolves to
ResultSet id `rs`: Range (emitted before resolution), Next,
ReferenceResult, references edge, Item. -/
def linkRecords (doc : Nat) (c : Nat) (rs : Nat) (r : RefOcc) : List Record :=
  [Record.range c r.span.start r.span.stop doc,
   Record.next (c + 1) rs c,
   Record.referenceResult (c + 2),
   Record.referencesEdge (c + 3) (c + 2) rs,
   Record.item (c + 4) doc [c] (c + 2)]

/-- One iteration of the reference loop of `index` (lines 344-378).  The
Range is emitted unconditionally; then: no candidates logs and skips, a
first candidate whose `full_name` is absent or not a key of
`names_to_result_sets` logs and skips, and otherwise the Next,
ReferenceResult, references-edge and Item records are emitted. -/
def processRef (doc : Nat) (st : Table) (c : Nat) (r : RefOcc) : RefOut :=
  let rangeRec := Record.range c r.span.start r.span.stop doc
  match r.candidates with
  | [] => ⟨c + 1, [rangeRec], ["No definitions found"], c, none⟩
  | cand :: _ =>
    match cand.fullName with
    | none => ⟨c + 1, [rangeRec], ["SKIPPING"], c, none⟩
    | some fn =>
      match stLookup st fn with
      | none => ⟨c + 1, [rangeRec], ["SKIPPING"], c, none⟩
      | some rs =>
        ⟨c + 5, linkRecords doc c rs r, [], c, some ⟨fn, rs⟩⟩

/-- Accumulated output of a definition pass. -/
structure PassOut where
  table : Table
  counter : Nat
  recs : List Record
  ranges : List Nat
  evs : List DefEvent
  deriving DecidableEq

/-- The definition pass over one unit's occurrences; `.error` means the
`assert` fired and carries everything emitted before the abort. -/
def defPass (doc : Nat) (st : Table) (c : Nat) : List DefOcc → Except PassOut PassOut
  | [] => .ok ⟨st, c, [], [], []⟩
  | d :: ds =>
    match processDef doc st c d with
    | .error c1 => .error ⟨st, c1, [], [], []⟩
    | .ok o =>
      match defPass doc o.table o.counter ds with
      | .ok p => .ok ⟨p.table, p.counter, o.recs ++ p.recs, o.rangeId :: p.ranges, o.ev :: p.evs⟩
      | .error p =>
        .error ⟨p.table, p.counter, o.recs ++ p.recs, o.rangeId :: p.ranges, o.ev :: p.evs⟩

/-- Accumulated output of a reference pass. -/
structure RefPassOut where
  counter : Nat
  recs : List Record
  logs : List String
  ranges : List Nat
  links : List LinkEvent
  deriving DecidableEq

/-- The reference pass over one unit's occurrences; the symbol table is
read but never written here. -/
def refPass (doc : Nat) (st : Table) (c : Nat) : List RefOcc → RefPassOut
  | [] => ⟨c, [], [], [], []⟩
  | r :: rs =>
    let o := processRef doc st c r
    let p := refPass doc st o.counter rs
    ⟨p.counter, o.recs ++ p.recs, o.logs ++ p.logs, o.rangeId :: p.ranges,
     o.link.toList ++ p.links⟩

/-- Output of visiting one source unit.  `ranges` is the final value of the
per-unit `contained_ranges` list and `refRanges` its reference-pass
suffix. -/
structure VisitData where
  cache : Table
  docId : Nat
  table : Table
  counter : Nat
  recs : List Record
  logs : List String
  ranges : List Nat
  refRanges : List Nat
  evs : List DefEvent
  links : List LinkEvent
  deriving DecidableEq

/-- The Document id used for unit `f`: the cached one if
`module_path_to_document_node` already has the absolute path, otherwise a
freshly allocated id. -/
def docIdOf (cache : Table) (c : Nat) (f : SourceFile) : Nat :=
  match stLookup cache f.path with
  | some i => i
  | none => c

/-- The counter after the document step: one allocation happens only when
the Document is newly created. -/
def cAfterDoc (cache : Table) (c : Nat) (f : SourceFile) : Nat :=
  match stLookup cache f.path with
  | some _ => c
  | none => c + 1

/-- The records emitted by the document step: a Document record only when
newly created. -/
def docRecsOf (cache : Table) (c : Nat) (f : SourceFile) : List Record :=
  match stLookup cache f.path with
  | some _ => []
  | none => [Record.document c f.uri]

/-- One iteration of the file loop of `index` (lines 289-385): resolve or
create the Document, run the definition pass (whose failure aborts), run
the reference pass, then emit the unit's Contains edge over the
accumulated `contained_ranges`. -/
def visitFile (cache : Table) (st : Table) (c : Nat) (f : SourceFile) :
    Except VisitData VisitData :=
  let docId := docIdOf cache c f
  let c1 := cAfterDoc cache c f
  let docRecs := docRecsOf cache c f
  let cache1 := dictInsert cache f.path docId
  match defPass docId st c1 f.defs with
  | .error p =>
    .error ⟨cache1, docId, p.table, p.counter, docRecs ++ p.recs, [], p.ranges, [], p.evs, []⟩
  | .ok p =>
    let q := refPass docId p.table p.counter f.refs
    .ok ⟨cache1, docId, p.table, q.counter + 1,
      docRecs ++ p.recs ++ q.recs ++
        [Record.contains q.counter (p.ranges ++ q.ranges) docId],
      q.logs, p.ranges ++ q.ranges, q.ranges, p.evs, q.links⟩

/-- Accumulated output of the file loop. -/
structure FilesData where
  cache : Table
  table : Table
  counter : Nat
  recs : List Record
  logs : List String
  docIds : List Nat
  evs : List DefEvent
  links : List LinkEvent
  deriving DecidableEq

/-- The file loop of `index`; a fatal definition aborts it, keeping the
prefix emitted so far. -/
def visitFiles (cache : Table) (st : Table) (c : Nat) :
    List SourceFile → Except FilesData FilesData
  | [] => .ok ⟨cache, st, c, [], [], [], [], []⟩
  | f :: fs =>
    match visitFile cache st c f with
    | .error v =>
      .error ⟨v.cache, v.table, v.counter, v.recs, v.logs, [v.docId], v.evs, v.links⟩
    | .ok v =>
      match visitFiles v.cache v.table v.counter fs with
      | .ok w =>
        .ok ⟨w.cache, w.table, w.counter, v.recs ++ w.recs, v.logs ++ w.logs,
          v.docId :: w.docIds, v.evs ++ w.evs, v.links ++ w.links⟩
      | .error w =>
        .error ⟨w.cache, w.table, w.counter, v.recs ++ w.recs, v.logs ++ w.logs,
          v.docId :: w.docIds, v.evs ++ w.evs, v.links ++ w.links⟩

/-- Result of one run of `index`: either the complete trace, or the prefix
written before an `AssertionError` aborted the run. -/
inductive RunResult where
  | ok (recs : List Record) (logs : List String) (counter : Nat)
      (evs : List DefEvent) (links : List LinkEvent)
  | fatal (recs : List Record) (logs : List String) (counter : Nat)
  deriving DecidableEq

/-- The whole of `index` (lines 277-389): metadata (no id), project, the
file loop, then the project Contains edge.  `c0` is the value of the
class-level id generator when the run starts: 1 at process start, and
whatever an earlier run in the same process left behind otherwise. -/
def indexRun (root : String) (files : List SourceFile) (c0 : Nat) : RunResult :=
  match visitFiles [] [] (c0 + 1) files with
  | .error w =>
    .fatal (Record.metaData root :: Record.project c0 :: w.recs) w.logs w.counter
  | .ok w =>
    .ok (Record.metaData root :: Record.project c0 :: w.recs ++
          [Record.contains w.counter w.docIds c0])
      w.logs (w.counter + 1) w.evs w.links

/-- Two successive `index` runs in one process: the generator is a class
attribute of `BaseNode`, so the second run starts from the counter the
first run left behind. -/
def twoRuns (root : String) (files : List SourceFile) : RunResult × RunResult :=
  match indexRun root files 1 with
  | .ok r l c e li => (.ok r l c e li, indexRun root files c)
  | .fatal r l c => (.fatal r l c, indexRun root files c)

/-- The number of ResultSet records in a trace. -/
def countResultSets (recs : List Record) : Nat :=
  (recs.filter Record.isResultSet).length

/-! ### Symbol-table lemmas -/

@[simp]
theorem tvals_nil : tvals [] = [] := rfl

@[simp]
theorem tvals_cons (p : String × Nat) (t : Table) : tvals (p :: t) = p.snd :: tvals t := rfl

theorem stLookup_dictInsert (t : Table) (m : String) (w : Nat) (n : String) :
    stLookup (dictInsert t m w) n = if n = m then some w else stLookup t n := by
  induction t with
  | nil =>
    simp only [dictInsert, stLookup]
    by_cases h : n = m
    · subst h
      simp
    · rw [if_neg (fun hh : m = n => h hh.symm), if_neg h]
  | cons p t ih =>
    by_cases hp : p.fst = m
    · simp only [dictInsert, if_pos hp, stLookup]
      by_cases h : n = m
      · subst h
        simp
      · rw [if_neg (fun hh : m = n => h hh.symm), if_neg h,
          if_neg (fun hh : p.fst = n => h (hh.symm.trans hp))]
    · simp only [dictInsert, if_neg hp, stLookup, ih]
      by_cases h1 : p.fst = n
      · by_cases h2 : n = m
        · exact absurd (h1.trans h2) hp
        · rw [if_pos h1, if_neg h2, if_pos h1]
      · by_cases h2 : n = m
        · rw [if_neg h1, if_pos h2, if_pos h2]
        · rw [if_neg h1, if_neg h2, if_neg h2, if_neg h1]

theorem tvals_dictInsert (t : Table) (n : String) (v : Nat) :
    tvals (dictInsert t n v) ⊆ v :: tvals t := by
  induction t with
  | nil => simp [dictInsert]
  | cons p t ih =>
    intro x hx
    simp only [dictInsert] at hx
    split_ifs at hx with hp
    · simp only [tvals_cons, List.mem_cons] at hx ⊢
      rcases hx with h | h
      · exact Or.inl h
      · exact Or.inr (Or.inr h)
    · simp only [tvals_cons, List.mem_cons] at hx ⊢
      rcases hx with h | h
      · exact Or.inr (Or.inl h)
      · rcases List.mem_cons.mp (ih h) with h2 | h2
        · exact Or.inl h2
        · exact Or.inr (Or.inr h2)

theorem stLookup_mem_tvals (t : Table) (n : String) (v : Nat) (h : stLookup t n = some v) :
    v ∈ tvals t := by
  induction t with
  | nil => simp [stLookup] at h
  | cons p t ih =>
    simp only [stLookup] at h
    split_ifs at h with hp
    · simp only [Option.some.injEq] at h
      subst h
      simp
    · simpa using Or.inr (ih h)

theorem keyFilter_dictInsert (t : Table) (n : String) (v : Nat)
    (h : (t.filter fun p => p.fst == n).length ≤ 1) :
    ((dictInsert t n v).filter fun p => p.fst == n) = [(n, v)] := by
  induction t with
  | nil => simp [dictInsert]
  | cons p t ih =>
    simp only [dictInsert]
    split_ifs with hp
    · have hfl : ((p :: t).filter fun p => p.fst == n) =
          p :: (t.filter fun p => p.fst == n) := by
        simp [List.filter_cons, hp]
      rw [hfl] at h
      simp only [List.length_cons] at h
      have ht : (t.filter fun p => p.fst == n) = [] := by
        apply List.eq_nil_of_length_eq_zero
        omega
      simp [List.filter_cons, ht]
    · have hfl : ((p :: t).filter fun p => p.fst == n) =
          (t.filter fun p => p.fst == n) := by
        simp [List.filter_cons, hp]
      rw [hfl] at h
      simpa [List.filter_cons, hp] using ih h

theorem stLookup_eq_none_of_not_mem (t : Table) (m : String)
    (h : ∀ p ∈ t, p.fst ≠ m) : stLookup t m = none := by
  induction t with
  | nil => rfl
  | cons p t ih =>
    simp only [stLookup]
    rw [if_neg (h p (by simp))]
    exact ih fun q hq => h q (by simp [hq])

/-- Claim C5: calling the symbol-table define operation twice with the same
qualified name leaves exactly one entry for that name, holding the later
ResultSet id (last-write-wins); a lookup then returns the later id, and a
lookup of a name never defined returns `none` rather than an error.  The
hypothesis says the starting table is dict-like: it holds at most one entry
for the name (always true of tables built by `dictInsert`). -/
theorem C5_symbol_table_last_write_wins (t : Table) (n : String) (i1 i2 : Nat)
    (h : (t.filter fun p => p.fst == n).length ≤ 1) :
    ((dictInsert (dictInsert t n i1) n i2).filter fun p => p.fst == n) = [(n, i2)] ∧
    stLookup (dictInsert (dictInsert t n i1) n i2) n = some i2 ∧
    (∀ m : String, (∀ p ∈ t, p.fst ≠ m) → stLookup t m = none) := by
  refine ⟨?_, ?_, fun m hm => stLookup_eq_none_of_not_mem t m hm⟩
  · have h1 := keyFilter_dictInsert t n i1 h
    exact keyFilter_dictInsert (dictInsert t n i1) n i2 (by rw [h1]; simp)
  · rw [stLookup_dictInsert]
    simp

/-- Witness for C5 at the empty table with name "a" and ids 1 then 2. -/
theorem C5_symbol_table_last_write_wins_witness :
    ((dictInsert (dictInsert ([] : Table) ("a") 1) ("a") 2).filter fun p => p.fst == ("a")) =
      [(("a"), 2)] ∧
    stLookup (dictInsert (dictInsert ([] : Table) ("a") 1) ("a") 2) ("a") = some 2 ∧
    (∀ m : String, (∀ p ∈ ([] : Table), p.fst ≠ m) → stLookup ([] : Table) m = none) :=
  C5_symbol_table_last_write_wins [] ("a") 1 2 (by simp)

/-! ### Per-occurrence spec lemmas -/

theorem processDef_ok_iff (doc : Nat) (st : Table) (c : Nat) (d : DefOcc) (o : DefOk) :
    processDef doc st c d = .ok o ↔
      derivedName d ≠ "" ∧
      o = ⟨dictInsert st (derivedName d) c, c + 8, defRecords doc c d, c + 1,
        ⟨derivedName d, c⟩⟩ := by
  unfold processDef
  by_cases h : derivedName d = "" <;> simp [h, eq_comm]

theorem processDef_error_iff (doc : Nat) (st : Table) (c : Nat) (d : DefOcc) (e : Nat) :
    processDef doc st c d = .error e ↔ derivedName d = "" ∧ e = c + 1 := by
  unfold processDef
  by_cases h : derivedName d = "" <;> simp [h, eq_comm]

theorem idsOf_defRecords (doc c : Nat) (d : DefOcc) :
    idsOf (defRecords doc c d) = List.range' c 8 := by
  simp [idsOf, defRecords, Record.idOf, List.range']

theorem rangeIds_defRecords (doc c : Nat) (d : DefOcc) :
    rangeIds (defRecords doc c d) = [c + 1] := by
  simp [rangeIds, defRecords]

theorem filter_isContains_defRecords (doc c : Nat) (d : DefOcc) :
    (defRecords doc c d).filter Record.isContains = [] := by
  simp [defRecords, Record.isContains]

theorem countResultSets_defRecords (doc c : Nat) (d : DefOcc) :
    countResultSets (defRecords doc c d) = 1 := by
  simp [countResultSets, defRecords, Record.isResultSet]

theorem idsOf_linkRecords (doc c rs : Nat) (r : RefOcc) :
    idsOf (linkRecords doc c rs r) = List.range' c 5 := by
  simp [idsOf, linkRecords, Record.idOf, List.range']

theorem rangeIds_linkRecords (doc c rs : Nat) (r : RefOcc) :
    rangeIds (linkRecords doc c rs r) = [c] := by
  simp [rangeIds, linkRecords]

theorem filter_isContains_linkRecords (doc c rs : Nat) (r : RefOcc) :
    (linkRecords doc c rs r).filter Record.isContains = [] := by
  simp [linkRecords, Record.isContains]

theorem countResultSets_linkRecords (doc c rs : Nat) (r : RefOcc) :
    countResultSets (linkRecords doc c rs r) = 0 := by
  simp [countResultSets, linkRecords, Record.isResultSet]

theorem processRef_no_candidates (doc : Nat) (st : Table) (c : Nat) (r : RefOcc)
    (h : r.candidates = []) :
    processRef doc st c r =
      ⟨c + 1, [Record.range c r.span.start r.span.stop doc],
        ["No definitions found"], c, none⟩ := by
  simp [processRef, h]

theorem processRef_unnamed_candidate (doc : Nat) (st : Table) (c : Nat) (r : RefOcc)
    (cand : Candidate) (rest : List Candidate)
    (h : r.candidates = cand :: rest) (h2 : cand.fullName = none) :
    processRef doc st c r =
      ⟨c + 1, [Record.range c r.span.start r.span.stop doc], ["SKIPPING"], c, none⟩ := by
  simp [processRef, h, h2]

theorem processRef_unknown_candidate (doc : Nat) (st : Table) (c : Nat) (r : RefOcc)
    (cand : Candidate) (rest : List Candidate) (fn : String)
    (h : r.candidates = cand :: rest) (h2 : cand.fullName = some fn)
    (h3 : stLookup st fn = none) :
    processRef doc st c r =
      ⟨c + 1, [Record.range c r.span.start r.span.stop doc], ["SKIPPING"], c, none⟩ := by
  simp [processRef, h, h2, h3]

theorem processRef_link (doc : Nat) (st : Table) (c : Nat) (r : RefOcc)
    (cand : Candidate) (rest : List Candidate) (fn : String) (rs : Nat)
    (h : r.candidates = cand :: rest) (h2 : cand.fullName = some fn)
    (h3 : stLookup st fn = some rs) :
    processRef doc st c r = ⟨c + 5, linkRecords doc c rs r, [], c, some ⟨fn, rs⟩⟩ := by
  simp [processRef, h, h2, h3]

/-- Every reference occurrence either skips (one Range record, counter +1)
or links (the five `linkRecords`, counter +5); in both cases the Range id
is `c`. -/
theorem processRef_cases (doc : Nat) (st : Table) (c : Nat) (r : RefOcc) :
    (processRef doc st c r).counter = c + 1 ∧
      (processRef doc st c r).recs = [Record.range c r.span.start r.span.stop doc] ∧
      (processRef doc st c r).rangeId = c ∧ (processRef doc st c r).link = none ∨
    (∃ rs fn, (processRef doc st c r).counter = c + 5 ∧
      (processRef doc st c r).recs = linkRecords doc c rs r ∧
      (processRef doc st c r).rangeId = c ∧
      (processRef doc st c r).link = some ⟨fn, rs⟩ ∧ stLookup st fn = some rs) := by
  rcases hc : r.candidates with _ | ⟨cand, rest⟩
  · left
    simp [processRef_no_candidates doc st c r hc]
  · rcases hf : cand.fullName with _ | fn
    · left
      simp [processRef_unnamed_candidate doc st c r cand rest hc hf]
    · rcases hl : stLookup st fn with _ | rs
      · left
        simp [processRef_unknown_candidate doc st c r cand rest fn hc hf hl]
      · right
        refine ⟨rs, fn, ?_⟩
        simp [processRef_link doc st c r cand rest fn rs hc hf hl, hl]

/-! ### Trace helpers -/

theorem idsOf_append (a b : List Record) : idsOf (a ++ b) = idsOf a ++ idsOf b := by
  simp [idsOf]

theorem rangeIds_append (a b : List Record) : rangeIds (a ++ b) = rangeIds a ++ rangeIds b := by
  simp [rangeIds]

theorem countResultSets_append (a b : List Record) :
    countResultSets (a ++ b) = countResultSets a + countResultSets b := by
  simp [countResultSets]

/-! ### Pass aggregates -/

/-- What one successful definition pass produces: counter advanced by 8 per
occurrence, consecutive ids, `contained_ranges` exactly the Range records,
no Contains record, one ResultSet record and one table registration per
occurrence, and every record carrying an id. -/
theorem defPass_ok_spec (doc : Nat) (st : Table) (c : Nat) (ds : List DefOcc) (p : PassOut)
    (h : defPass doc st c ds = .ok p) :
    p.counter = c + 8 * ds.length ∧
    idsOf p.recs = List.range' c (8 * ds.length) ∧
    rangeIds p.recs = p.ranges ∧
    p.recs.filter Record.isContains = [] ∧
    countResultSets p.recs = ds.length ∧
    p.evs.length = ds.length ∧
    (∀ r ∈ p.recs, (Record.idOf r).isSome = true) := by
  induction ds generalizing st c p with
  | nil =>
    simp only [defPass, Except.ok.injEq] at h
    subst h
    simp [idsOf, rangeIds, countResultSets]
  | cons d ds ih =>
    rcases hpd : processDef doc st c d with e | o
    · simp [defPass, hpd] at h
    · rcases hq : defPass doc o.table o.counter ds with q | q
      · simp [defPass, hpd, hq] at h
      · simp only [defPass, hpd, hq, Except.ok.injEq] at h
        subst h
        obtain ⟨-, ho⟩ := (processDef_ok_iff doc st c d o).mp hpd
        subst ho
        simp only at hq
        obtain ⟨h1, h2, h3, h4, h5, h6, h7⟩ := ih _ _ q hq
        simp only at h1 h2 h3 h4 h5 h6 h7 ⊢
        refine ⟨by simp only [List.length_cons]; omega, ?_, ?_, ?_, ?_, ?_, ?_⟩
        · rw [idsOf_append, idsOf_defRecords, h2, List.range'_append_1]
          simp [Nat.mul_succ]
        · rw [rangeIds_append, rangeIds_defRecords, h3]
          rfl
        · rw [List.filter_append, filter_isContains_defRecords, h4]
          rfl
        · rw [countResultSets_append, countResultSets_defRecords, h5]
          simp only [List.length_cons]
          omega
        · simp only [List.length_cons, h6]
        · intro r hr
          rcases List.mem_append.mp hr with hr | hr
          · simp only [defRecords, List.mem_cons] at hr
            rcases hr with h | h | h | h | h | h | h | h | h <;>
              first
              | (subst h; rfl)
              | simp at h
          · exact h7 r hr

/-- What one reference pass produces: a nondecreasing counter, consecutive
ids, `ranges` exactly the Range records (one per occurrence, resolved or
not), no Contains and no ResultSet record, every record carrying an id. -/
theorem refPass_spec (doc : Nat) (st : Table) (c : Nat) (rs : List RefOcc) :
    c ≤ (refPass doc st c rs).counter ∧
    idsOf (refPass doc st c rs).recs = List.range' c ((refPass doc st c rs).counter - c) ∧
    rangeIds (refPass doc st c rs).recs = (refPass doc st c rs).ranges ∧
    (refPass doc st c rs).recs.filter Record.isContains = [] ∧
    countResultSets (refPass doc st c rs).recs = 0 ∧
    (refPass doc st c rs).ranges.length = rs.length ∧
    (∀ r ∈ (refPass doc st c rs).recs, (Record.idOf r).isSome = true) := by
  induction rs generalizing c with
  | nil => simp [refPass, idsOf, rangeIds, countResultSets]
  | cons r rest ih =>
    simp only [refPass]
    obtain ⟨h1, h2, h3, h4, h5, h6, h7⟩ := ih (processRef doc st c r).counter
    rcases processRef_cases doc st c r with ⟨hc, hr, hrid, -⟩ | ⟨rsid, fn, hc, hr, hrid, -, -⟩
    · rw [hc] at h1 h2 h3 h4 h5 h6 h7 ⊢
      refine ⟨by omega, ?_, ?_, ?_, ?_, ?_, ?_⟩
      · rw [idsOf_append, hr, h2]
        have h8 : idsOf [Record.range c r.span.start r.span.stop doc] = List.range' c 1 := by
          simp [idsOf, Record.idOf, List.range']
        rw [h8, List.range'_append_1]
        congr 1
        omega
      · rw [rangeIds_append, hr, h3, hrid]
        simp [rangeIds]
      · rw [List.filter_append, hr, h4]
        simp [Record.isContains]
      · rw [countResultSets_append, hr, h5]
        simp [countResultSets, Record.isResultSet]
      · simp [h6, hrid]
      · intro x hx
        rcases List.mem_append.mp hx with hx | hx
        · rw [hr] at hx
          simp only [List.mem_singleton] at hx
          subst hx
          rfl
        · exact h7 x hx
    · rw [hc] at h1 h2 h3 h4 h5 h6 h7 ⊢
      refine ⟨by omega, ?_, ?_, ?_, ?_, ?_, ?_⟩
      · rw [idsOf_append, hr, h2, idsOf_linkRecords, List.range'_append_1]
        congr 1
        omega
      · rw [rangeIds_append, hr, h3, hrid, rangeIds_linkRecords]
        rfl
      · rw [List.filter_append, hr, h4, filter_isContains_linkRecords]
        rfl
      · rw [countResultSets_append, hr, h5, countResultSets_linkRecords]
      · simp [h6, hrid]
      · intro x hx
        rcases List.mem_append.mp hx with hx | hx
        · rw [hr] at hx
          simp only [linkRecords, List.mem_cons] at hx
          rcases hx with h | h | h | h | h | h <;>
            first
            | (subst h; rfl)
            | simp at h
        · exact h7 x hx

/-! ### Visiting one unit -/

theorem range'_glue (a m n : Nat) :
    List.range' a m ++ List.range' (a + m) n = List.range' a (m + n) := by
  rw [List.range'_append_1, Nat.add_comm]

theorem range'_glue4 (a b k d : Nat) (h1 : a ≤ b) (h2 : b ≤ k) (h3 : k ≤ d) :
    List.range' a (b - a) ++ (List.range' b (k - b) ++
      (List.range' k (d - k) ++ List.range' d 1)) =
    List.range' a (d + 1 - a) := by
  have e1 : k + (d - k) = d := by omega
  have g1 := range'_glue k (d - k) 1
  rw [e1] at g1
  rw [g1]
  have e2 : b + (k - b) = k := by omega
  have g2 := range'_glue b (k - b) (d - k + 1)
  rw [e2] at g2
  rw [g2]
  have e3 : a + (b - a) = b := by omega
  have g3 := range'_glue a (b - a) (k - b + (d - k + 1))
  rw [e3] at g3
  rw [g3]
  congr 1
  omega

theorem docRecs_spec (cache : Table) (c : Nat) (f : SourceFile) :
    c ≤ cAfterDoc cache c f ∧
    idsOf (docRecsOf cache c f) = List.range' c (cAfterDoc cache c f - c) ∧
    rangeIds (docRecsOf cache c f) = [] ∧
    (docRecsOf cache c f).filter Record.isContains = [] ∧
    countResultSets (docRecsOf cache c f) = 0 ∧
    (∀ r ∈ docRecsOf cache c f, (Record.idOf r).isSome = true) := by
  cases h : stLookup cache f.path <;>
    simp [cAfterDoc, docRecsOf, h, idsOf, rangeIds, countResultSets, Record.idOf,
      Record.isContains, Record.isResultSet, List.range']

theorem visitFile_error_of_defPass (cache st : Table) (c : Nat) (f : SourceFile) (p : PassOut)
    (h : defPass (docIdOf cache c f) st (cAfterDoc cache c f) f.defs = .error p) :
    visitFile cache st c f = .error ⟨dictInsert cache f.path (docIdOf cache c f),
      docIdOf cache c f, p.table, p.counter, docRecsOf cache c f ++ p.recs, [], p.ranges, [],
      p.evs, []⟩ := by
  simp only [visitFile, h]

theorem visitFile_ok_of_defPass (cache st : Table) (c : Nat) (f : SourceFile) (p : PassOut)
    (h : defPass (docIdOf cache c f) st (cAfterDoc cache c f) f.defs = .ok p) :
    visitFile cache st c f = .ok ⟨dictInsert cache f.path (docIdOf cache c f),
      docIdOf cache c f, p.table,
      (refPass (docIdOf cache c f) p.table p.counter f.refs).counter + 1,
      docRecsOf cache c f ++ p.recs ++
        (refPass (docIdOf cache c f) p.table p.counter f.refs).recs ++
        [Record.contains (refPass (docIdOf cache c f) p.table p.counter f.refs).counter
          (p.ranges ++ (refPass (docIdOf cache c f) p.table p.counter f.refs).ranges)
          (docIdOf cache c f)],
      (refPass (docIdOf cache c f) p.table p.counter f.refs).logs,
      p.ranges ++ (refPass (docIdOf cache c f) p.table p.counter f.refs).ranges,
      (refPass (docIdOf cache c f) p.table p.counter f.refs).ranges, p.evs,
      (refPass (docIdOf cache c f) p.table p.counter f.refs).links⟩ := by
  simp only [visitFile, h]

theorem visitFile_ok_elim (cache st : Table) (c : Nat) (f : SourceFile) (v : VisitData)
    (h : visitFile cache st c f = .ok v) :
    ∃ p, defPass (docIdOf cache c f) st (cAfterDoc cache c f) f.defs = .ok p ∧
      v = ⟨dictInsert cache f.path (docIdOf cache c f),
        docIdOf cache c f, p.table,
        (refPass (docIdOf cache c f) p.table p.counter f.refs).counter + 1,
        docRecsOf cache c f ++ p.recs ++
          (refPass (docIdOf cache c f) p.table p.counter f.refs).recs ++
          [Record.contains (refPass (docIdOf cache c f) p.table p.counter f.refs).counter
            (p.ranges ++ (refPass (docIdOf cache c f) p.table p.counter f.refs).ranges)
            (docIdOf cache c f)],
        (refPass (docIdOf cache c f) p.table p.counter f.refs).logs,
        p.ranges ++ (refPass (docIdOf cache c f) p.table p.counter f.refs).ranges,
        (refPass (docIdOf cache c f) p.table p.counter f.refs).ranges, p.evs,
        (refPass (docIdOf cache c f) p.table p.counter f.refs).links⟩ := by
  rcases hdp : defPass (docIdOf cache c f) st (cAfterDoc cache c f) f.defs with p | p
  · rw [visitFile_error_of_defPass cache st c f p hdp] at h
    simp at h
  · rw [visitFile_ok_of_defPass cache st c f p hdp] at h
    simp only [Except.ok.injEq] at h
    exact ⟨p, rfl, h.symm⟩

/-- What visiting one unit produces when the definition pass succeeds:
consecutive ids, `contained_ranges` exactly the visit's Range records,
exactly one Contains record — the last record of the visit, owned by the
unit's Document and listing exactly the visit's ranges — one ResultSet and
one table registration per definition occurrence, one reference range per
reference occurrence, and every record carrying an id. -/
theorem visitFile_ok_spec (cache st : Table) (c : Nat) (f : SourceFile) (v : VisitData)
    (h : visitFile cache st c f = .ok v) :
    c < v.counter ∧
    idsOf v.recs = List.range' c (v.counter - c) ∧
    rangeIds v.recs = v.ranges ∧
    v.recs.filter Record.isContains = [Record.contains (v.counter - 1) v.ranges v.docId] ∧
    v.recs.getLast? = some (Record.contains (v.counter - 1) v.ranges v.docId) ∧
    countResultSets v.recs = f.defs.length ∧
    v.evs.length = f.defs.length ∧
    v.refRanges.length = f.refs.length ∧
    (∀ x ∈ v.refRanges, x ∈ v.ranges) ∧
    (∀ r ∈ v.recs, (Record.idOf r).isSome = true) := by
  obtain ⟨p, hdp, hv⟩ := visitFile_ok_elim cache st c f v h
  subst hv
  obtain ⟨hd1, hd2, hd3, hd4, hd5, hd6⟩ := docRecs_spec cache c f
  obtain ⟨hp1, hp2, hp3, hp4, hp5, hp6, hp7⟩ := defPass_ok_spec _ _ _ _ p hdp
  obtain ⟨hq1, hq2, hq3, hq4, hq5, hq6, hq7⟩ :=
    refPass_spec (docIdOf cache c f) p.table p.counter f.refs
  simp only
  have hcnt : Record.isContains (Record.contains
      (refPass (docIdOf cache c f) p.table p.counter f.refs).counter
      (p.ranges ++ (refPass (docIdOf cache c f) p.table p.counter f.refs).ranges)
      (docIdOf cache c f)) = true := rfl
  refine ⟨by omega, ?_, ?_, ?_, ?_, ?_, hp6, hq6, ?_, ?_⟩
  · rw [idsOf_append, idsOf_append, idsOf_append, hd2, hp2, hq2]
    have e1 : idsOf [Record.contains
        (refPass (docIdOf cache c f) p.table p.counter f.refs).counter
        (p.ranges ++ (refPass (docIdOf cache c f) p.table p.counter f.refs).ranges)
        (docIdOf cache c f)] =
        List.range' (refPass (docIdOf cache c f) p.table p.counter f.refs).counter 1 := by
      simp [idsOf, Record.idOf, List.range']
    rw [e1]
    have e2 : (8 : Nat) * f.defs.length = p.counter - cAfterDoc cache c f := by
      omega
    rw [e2]
    simp only [List.append_assoc]
    exact range'_glue4 c (cAfterDoc cache c f) p.counter
      (refPass (docIdOf cache c f) p.table p.counter f.refs).counter hd1 (by omega) hq1
  · rw [rangeIds_append, rangeIds_append, rangeIds_append, hd3, hp3, hq3]
    simp [rangeIds]
  · rw [List.filter_append, List.filter_append, List.filter_append, hd4, hp4, hq4]
    simp [hcnt]
  · rw [List.getLast?_concat]
    simp
  · rw [countResultSets_append, countResultSets_append, countResultSets_append,
      hd5, hp5, hq5]
    simp [countResultSets, Record.isResultSet]
  · intro x hx
    exact List.mem_append_right p.ranges hx
  · intro r hr
    rcases List.mem_append.mp hr with hr | hr
    · rcases List.mem_append.mp hr with hr | hr
      · rcases List.mem_append.mp hr with hr | hr
        · exact hd6 r hr
        · exact hp7 r hr
      · exact hq7 r hr
    · simp only [List.mem_singleton] at hr
      subst hr
      rfl

/-! ### Run-level aggregates -/

/-- What the file loop of a successful run produces: consecutive ids, one
Contains record per unit, one ResultSet record per table registration, and
every record carrying an id. -/
theorem visitFiles_ok_spec (cache st : Table) (c : Nat) (fs : List SourceFile) (w : FilesData)
    (h : visitFiles cache st c fs = .ok w) :
    c ≤ w.counter ∧
    idsOf w.recs = List.range' c (w.counter - c) ∧
    (w.recs.filter Record.isContains).length = fs.length ∧
    countResultSets w.recs = w.evs.length ∧
    (∀ r ∈ w.recs, (Record.idOf r).isSome = true) := by
  induction fs generalizing cache st c w with
  | nil =>
    simp only [visitFiles, Except.ok.injEq] at h
    subst h
    simp [idsOf, countResultSets, List.range']
  | cons f fs ih =>
    rcases hv : visitFile cache st c f with v | v
    · simp [visitFiles, hv] at h
    · rcases hw : visitFiles v.cache v.table v.counter fs with w2 | w2
      · simp [visitFiles, hv, hw] at h
      · simp only [visitFiles, hv, hw, Except.ok.injEq] at h
        subst h
        obtain ⟨hv1, hv2, -, hv4, -, hv6, hv7, -, -, hv10⟩ :=
          visitFile_ok_spec cache st c f v hv
        obtain ⟨hw1, hw2, hw3, hw4, hw5⟩ := ih v.cache v.table v.counter w2 hw
        simp only
        refine ⟨by omega, ?_, ?_, ?_, ?_⟩
        · rw [idsOf_append, hv2, hw2]
          have g := range'_glue c (v.counter - c) (w2.counter - v.counter)
          rw [show c + (v.counter - c) = v.counter from by omega] at g
          rw [g]
          congr 1
          omega
        · rw [List.filter_append, List.length_append, hv4, hw3]
          simp only [List.length_cons, List.length_nil]
          omega
        · rw [countResultSets_append, hv6, hw4, List.length_append, hv7]
        · intro r hr
          rcases List.mem_append.mp hr with hr | hr
          · exact hv10 r hr
          · exact hw5 r hr

theorem indexRun_ok_elim (root : String) (files : List SourceFile) (c0 : Nat)
    (recs : List Record) (logs : List String) (c : Nat) (evs : List DefEvent)
    (links : List LinkEvent) (h : indexRun root files c0 = .ok recs logs c evs links) :
    ∃ w, visitFiles [] [] (c0 + 1) files = .ok w ∧
      recs = Record.metaData root :: Record.project c0 :: (w.recs ++
        [Record.contains w.counter w.docIds c0]) ∧
      logs = w.logs ∧ c = w.counter + 1 ∧ evs = w.evs ∧ links = w.links := by
  rcases hw : visitFiles [] [] (c0 + 1) files with w | w
  · simp [indexRun, hw] at h
  · simp only [indexRun, hw, RunResult.ok.injEq] at h
    exact ⟨w, rfl, h.1.symm, h.2.1.symm, h.2.2.1.symm, h.2.2.2.1.symm, h.2.2.2.2.symm⟩

/-- What a whole successful run emits: the metadata sentinel first (the only
record without an id), the project record second, ids consecutive from
`c0`, one Contains record per unit plus the project Contains, and one
ResultSet record per table registration. -/
theorem indexRun_ok_spec (root : String) (files : List SourceFile) (c0 : Nat)
    (recs : List Record) (logs : List String) (c : Nat) (evs : List DefEvent)
    (links : List LinkEvent) (h : indexRun root files c0 = .ok recs logs c evs links) :
    c0 + 2 ≤ c ∧
    idsOf recs = List.range' c0 (c - c0) ∧
    recs.head? = some (Record.metaData root) ∧
    recs.get? 1 = some (Record.project c0) ∧
    recs.filter (fun r => (Record.idOf r).isNone) = [Record.metaData root] ∧
    (recs.filter Record.isContains).length = files.length + 1 ∧
    countResultSets recs = evs.length := by
  obtain ⟨w, hw, hrecs, -, hc, hevs, -⟩ := indexRun_ok_elim root files c0 recs logs c evs links h
  obtain ⟨hw1, hw2, hw3, hw4, hw5⟩ := visitFiles_ok_spec [] [] (c0 + 1) files w hw
  subst hrecs hc hevs
  have hnone : (w.recs.filter fun r => (Record.idOf r).isNone) = [] := by
    rw [List.filter_eq_nil_iff]
    intro a ha
    have hs := hw5 a ha
    rcases hi : Record.idOf a with _ | i
    · rw [hi] at hs
      simp at hs
    · simp [hi]
  refine ⟨by omega, ?_, rfl, rfl, ?_, ?_, ?_⟩
  · have e0 : idsOf (Record.metaData root :: Record.project c0 :: (w.recs ++
        [Record.contains w.counter w.docIds c0])) =
        c0 :: (idsOf w.recs ++ [w.counter]) := by
      simp [idsOf, Record.idOf]
    rw [e0, hw2]
    have g1 := range'_glue (c0 + 1) (w.counter - (c0 + 1)) 1
    rw [show c0 + 1 + (w.counter - (c0 + 1)) = w.counter from by omega] at g1
    have g2 : ([w.counter] : List Nat) = List.range' w.counter 1 := by
      simp [List.range']
    rw [g2, g1]
    rw [show w.counter + 1 - c0 = (w.counter - (c0 + 1) + 1) + 1 from by omega]
    conv_rhs => rw [List.range'_succ]
  · simp only [List.filter_cons, List.filter_append]
    rw [hnone]
    simp [Record.idOf]
  · simp only [List.filter_cons, List.filter_append]
    have e1 : Record.isContains (Record.metaData root) = false := rfl
    have e2 : Record.isContains (Record.project c0) = false := rfl
    have e3 : Record.isContains (Record.contains w.counter w.docIds c0) = true := rfl
    simp [e1, e2, e3, hw3]
  · simp only [countResultSets, List.filter_cons, List.filter_append]
    have e1 : Record.isResultSet (Record.metaData root) = false := rfl
    have e2 : Record.isResultSet (Record.project c0) = false := rfl
    have e3 : Record.isResultSet (Record.contains w.counter w.docIds c0) = false := rfl
    simp only [e1, e2, e3, if_neg, Bool.false_eq_true, if_false, List.filter_nil]
    rw [List.length_append]
    simp only [List.length_nil, Nat.add_zero]
    exact hw4

/-! ### Sample inputs used by witnesses and counterexamples -/

/-- A project-root URI for concrete runs. -/
def rootS : String := "file:///proj"

/-- A small span. -/
def spA : Span := ⟨⟨1, 0⟩, ⟨1, 3⟩⟩

/-- A definition occurrence with a full name. -/
def dA : DefOcc := ⟨some ("m.a"), "a", "doc of a", spA⟩

/-- A definition occurrence carrying only a short name. -/
def dShort : DefOcc := ⟨none, "x", "", spA⟩

/-- A definition occurrence with no derivable name at all. -/
def dBad : DefOcc := ⟨none, "", "", spA⟩

/-- A reference occurrence with no resolution candidates. -/
def rNone : RefOcc := ⟨⟨⟨2, 0⟩, ⟨2, 3⟩⟩, []⟩

/-- A reference occurrence that resolves to `m.a`. -/
def rA : RefOcc := ⟨⟨⟨3, 0⟩, ⟨3, 3⟩⟩, [⟨some ("m.a")⟩]⟩

/-- A reference occurrence whose only candidate names a symbol no
definition pass registered. -/
def rUnknown : RefOcc := ⟨⟨⟨4, 0⟩, ⟨4, 2⟩⟩, [⟨some ("zz")⟩]⟩

/-- A source unit with one definition and one resolving reference. -/
def fileA : SourceFile := ⟨"a.py", "file:///a.py", [dA], [rA]⟩

/-- A source unit with no occurrences at all. -/
def fileEmpty : SourceFile := ⟨"e.py", "file:///e.py", [], []⟩

/-- A source unit whose one reference has no candidates. -/
def fileNone : SourceFile := ⟨"n.py", "file:///n.py", [], [rNone]⟩

/-- A source unit with two definition occurrences reporting the same
qualified name. -/
def fileDup : SourceFile := ⟨"d.py", "file:///d.py", [dA, dA], []⟩

/-- A source unit whose one definition occurrence has no derivable name. -/
def fileBad : SourceFile := ⟨"b.py", "file:///b.py", [dBad], []⟩

/-! ### The claims -/

/-- Claim C1: for every source unit visited, after the definition and
reference passes the builder emits exactly one Contains edge, the last
record of the visit, whose `outV` is the unit's Document id and whose
`inVs` list is exactly the list of Range ids created while visiting the
unit (definition and reference ranges alike, unresolved references
included) — and, at run level, each unit contributes exactly one document
Contains edge (the per-unit range list restarts empty each visit), the `+1`
being the single project Contains edge. -/
theorem C1_contains_completeness :
    (∀ (cache st : Table) (c : Nat) (f : SourceFile) (v : VisitData),
      visitFile cache st c f = Except.ok v →
      ∃ cid, v.recs.filter Record.isContains =
          [Record.contains cid (rangeIds v.recs) v.docId] ∧
        v.recs.getLast? = some (Record.contains cid (rangeIds v.recs) v.docId)) ∧
    (∀ (root : String) (files : List SourceFile) (c0 : Nat) (recs : List Record)
      (logs : List String) (c : Nat) (evs : List DefEvent) (links : List LinkEvent),
      indexRun root files c0 = RunResult.ok recs logs c evs links →
      (recs.filter Record.isContains).length = files.length + 1) := by
  constructor
  · intro cache st c f v h
    obtain ⟨-, -, h3, h4, h5, -⟩ := visitFile_ok_spec cache st c f v h
    exact ⟨v.counter - 1, by rw [h3, h4], by rw [h3, h5]⟩
  · intro root files c0 recs logs c evs links h
    exact (indexRun_ok_spec root files c0 recs logs c evs links h).2.2.2.2.2.1

/-- Witness for C1: a unit with one definition and one resolving reference,
and a one-unit run. -/
theorem C1_contains_completeness_witness :
    (∃ v, visitFile [] [] 1 fileA = Except.ok v ∧
      ∃ cid, v.recs.filter Record.isContains =
          [Record.contains cid (rangeIds v.recs) v.docId] ∧
        v.recs.getLast? = some (Record.contains cid (rangeIds v.recs) v.docId)) ∧
    (∃ recs logs c evs links, indexRun rootS [fileA] 1 = RunResult.ok recs logs c evs links ∧
      (recs.filter Record.isContains).length = 1 + 1) := by
  constructor
  · exact ⟨_, rfl, C1_contains_completeness.1 [] [] 1 fileA _ rfl⟩
  · exact ⟨_, _, _, _, _, rfl, C1_contains_completeness.2 rootS [fileA] 1 _ _ _ _ _ rfl⟩

/-- Claim C7: in a run begun at process start (generator at 1), the
serialized ids are, in emission order (which is allocation order, since
every allocated node of a successful run is written at once), strictly
increasing, pairwise distinct, positive, and exactly the consecutive
integers from 1; the only record without an id is the single metadata
sentinel, emitted first, before the project record. -/
theorem C7_identifier_discipline (root : String) (files : List SourceFile)
    (recs : List Record) (logs : List String) (c : Nat) (evs : List DefEvent)
    (links : List LinkEvent) (h : indexRun root files 1 = RunResult.ok recs logs c evs links) :
    (idsOf recs).Pairwise (· < ·) ∧
    (∀ i ∈ idsOf recs, 1 ≤ i) ∧
    idsOf recs = List.range' 1 (c - 1) ∧
    recs.filter (fun r => (Record.idOf r).isNone) = [Record.metaData root] ∧
    recs.head? = some (Record.metaData root) ∧
    recs.get? 1 = some (Record.project 1) := by
  obtain ⟨-, h2, h3, h4, h5, -, -⟩ := indexRun_ok_spec root files 1 recs logs c evs links h
  refine ⟨?_, ?_, h2, h5, h3, h4⟩
  · rw [h2]
    exact List.pairwise_lt_range' 1 (c - 1)
  · intro i hi
    rw [h2] at hi
    exact (List.mem_range'_1.mp hi).1

/-- Witness for C7: the run over one unit holding a definition and a
reference. -/
theorem C7_identifier_discipline_witness :
    ∃ recs logs c evs links, indexRun rootS [fileA] 1 = RunResult.ok recs logs c evs links ∧
      ((idsOf recs).Pairwise (· < ·) ∧
      (∀ i ∈ idsOf recs, 1 ≤ i) ∧
      idsOf recs = List.range' 1 (c - 1) ∧
      recs.filter (fun r => (Record.idOf r).isNone) = [Record.metaData rootS] ∧
      recs.head? = some (Record.metaData rootS) ∧
      recs.get? 1 = some (Record.project 1)) :=
  ⟨_, _, _, _, _, rfl, C7_identifier_discipline rootS [fileA] _ _ _ _ _ rfl⟩

/-- Claim C10: a definition occurrence whose `full_name` is absent but
whose short `name` is present does not abort the run: it is registered in
the symbol table under the short name and all eight of its records are
emitted normally; the `assert` fires exactly when neither a qualified nor a
short name is available (Python truthiness: absent or empty). -/
theorem C10_short_name_fallback :
    (∀ (doc : Nat) (st : Table) (c : Nat) (d : DefOcc), d.fullName = none → d.name ≠ "" →
      processDef doc st c d =
        .ok ⟨dictInsert st d.name c, c + 8, defRecords doc c d, c + 1, ⟨d.name, c⟩⟩) ∧
    (∀ (doc : Nat) (st : Table) (c : Nat) (d : DefOcc),
      (∃ c1, processDef doc st c d = .error c1) ↔
        ((d.fullName = none ∨ d.fullName = some "") ∧ d.name = "")) := by
  constructor
  · intro doc st c d h1 h2
    have hd : derivedName d = d.name := by simp [derivedName, h1]
    have he := (processDef_ok_iff doc st c d
      ⟨dictInsert st (derivedName d) c, c + 8, defRecords doc c d, c + 1,
        ⟨derivedName d, c⟩⟩).mpr ⟨by rw [hd]; exact h2, rfl⟩
    rw [he, hd]
  · intro doc st c d
    constructor
    · rintro ⟨c1, hc1⟩
      obtain ⟨h1, -⟩ := (processDef_error_iff doc st c d c1).mp hc1
      rcases hf : d.fullName with _ | s
      · simp only [derivedName, hf] at h1
        exact ⟨Or.inl rfl, h1⟩
      · simp only [derivedName, hf] at h1
        by_cases hs : s = ""
        · subst hs
          rw [if_pos rfl] at h1
          exact ⟨Or.inr rfl, h1⟩
        · rw [if_neg hs] at h1
          exact absurd h1 hs
    · rintro ⟨h1, h2⟩
      refine ⟨c + 1, (processDef_error_iff doc st c d (c + 1)).mpr ⟨?_, rfl⟩⟩
      rcases h1 with h1 | h1 <;> simp [derivedName, h1, h2]

/-- Witness for C10: a short-named definition succeeds, a nameless one is
the fatal case. -/
theorem C10_short_name_fallback_witness :
    processDef 0 [] 1 dShort =
      .ok ⟨dictInsert [] (dShort.name) 1, 1 + 8, defRecords 0 1 dShort, 1 + 1,
        ⟨dShort.name, 1⟩⟩ ∧
    ((∃ c1, processDef 0 [] 1 dBad = Except.error c1) ↔
      ((dBad.fullName = none ∨ dBad.fullName = some "") ∧ dBad.name = "")) :=
  ⟨C10_short_name_fallback.1 0 [] 1 dShort rfl (by decide),
   C10_short_name_fallback.2 0 [] 1 dBad⟩

/-- Claim C3: a reference occurrence with zero resolution candidates still
emits exactly one record — its Range — plus one diagnostic, with no Next,
Item or ReferenceResult and no link event; the pass then continues with the
remaining references (the cons equation), every reference contributes
exactly one entry to `contained_ranges`, and each visit's reference ranges
all appear in the member list of the Contains edge that closes the
visit. -/
theorem C3_unresolved_reference_tolerance :
    (∀ (doc : Nat) (st : Table) (c : Nat) (r : RefOcc), r.candidates = [] →
      processRef doc st c r =
        ⟨c + 1, [Record.range c r.span.start r.span.stop doc],
          ["No definitions found"], c, none⟩) ∧
    (∀ (doc : Nat) (st : Table) (c : Nat) (r : RefOcc) (rest : List RefOcc),
      refPass doc st c (r :: rest) =
        ⟨(refPass doc st (processRef doc st c r).counter rest).counter,
         (processRef doc st c r).recs ++
           (refPass doc st (processRef doc st c r).counter rest).recs,
         (processRef doc st c r).logs ++
           (refPass doc st (processRef doc st c r).counter rest).logs,
         (processRef doc st c r).rangeId ::
           (refPass doc st (processRef doc st c r).counter rest).ranges,
         (processRef doc st c r).link.toList ++
           (refPass doc st (processRef doc st c r).counter rest).links⟩) ∧
    (∀ (doc : Nat) (st : Table) (c : Nat) (refs : List RefOcc),
      (refPass doc st c refs).ranges.length = refs.length) ∧
    (∀ (cache st : Table) (c : Nat) (f : SourceFile) (v : VisitData),
      visitFile cache st c f = Except.ok v →
      v.refRanges.length = f.refs.length ∧ (∀ x ∈ v.refRanges, x ∈ v.ranges) ∧
      ∃ cid, v.recs.getLast? = some (Record.contains cid v.ranges v.docId)) := by
  refine ⟨processRef_no_candidates, fun doc st c r rest => rfl, ?_, ?_⟩
  · intro doc st c refs
    exact (refPass_spec doc st c refs).2.2.2.2.2.1
  · intro cache st c f v h
    obtain ⟨-, -, -, -, h5, -, -, h8, h9, -⟩ := visitFile_ok_spec cache st c f v h
    exact ⟨h8, h9, v.counter - 1, h5⟩

/-- Witness for C3: the candidate-free reference and the unit holding only
it. -/
theorem C3_unresolved_reference_tolerance_witness :
    processRef 1 [] 2 rNone =
      ⟨2 + 1, [Record.range 2 rNone.span.start rNone.span.stop 1],
        ["No definitions found"], 2, none⟩ ∧
    (∃ v, visitFile [] [] 1 fileNone = Except.ok v ∧
      (v.refRanges.length = fileNone.refs.length ∧ (∀ x ∈ v.refRanges, x ∈ v.ranges) ∧
        ∃ cid, v.recs.getLast? = some (Record.contains cid v.ranges v.docId))) :=
  ⟨C3_unresolved_reference_tolerance.1 1 [] 2 rNone rfl,
   ⟨_, rfl, C3_unresolved_reference_tolerance.2.2.2 [] [] 1 fileNone _ rfl⟩⟩

theorem defPass_ok_names (doc : Nat) (st : Table) (c : Nat) (ds : List DefOcc) (p : PassOut)
    (h : defPass doc st c ds = .ok p) : ∀ d ∈ ds, derivedName d ≠ "" := by
  induction ds generalizing st c p with
  | nil => simp
  | cons d ds ih =>
    intro d2 hd2
    rcases hpd : processDef doc st c d with e | o
    · simp [defPass, hpd] at h
    · rcases hq : defPass doc o.table o.counter ds with q | q
      · simp [defPass, hpd, hq] at h
      · rcases List.mem_cons.mp hd2 with h2 | h2
        · subst h2
          intro hname
          have he : processDef doc st c d2 = .error (c + 1) :=
            (processDef_error_iff doc st c d2 (c + 1)).mpr ⟨hname, rfl⟩
          rw [he] at hpd
          simp at hpd
        · exact ih _ _ q hq d2 h2

theorem visitFiles_ok_names (cache st : Table) (c : Nat) (fs : List SourceFile) (w : FilesData)
    (h : visitFiles cache st c fs = .ok w) :
    ∀ f ∈ fs, ∀ d ∈ f.defs, derivedName d ≠ "" := by
  induction fs generalizing cache st c w with
  | nil => simp
  | cons f fs ih =>
    intro f2 hf2
    rcases hv : visitFile cache st c f with v | v
    · simp [visitFiles, hv] at h
    · rcases hw2 : visitFiles v.cache v.table v.counter fs with w2 | w2
      · simp [visitFiles, hv, hw2] at h
      · rcases List.mem_cons.mp hf2 with h2 | h2
        · subst h2
          obtain ⟨p, hdp, -⟩ := visitFile_ok_elim cache st c f2 v hv
          exact defPass_ok_names _ _ _ _ p hdp
        · exact ih _ _ _ w2 hw2 f2 h2

/-- Claim C4: a definition occurrence without a derivable qualified name
(the `assert def_name`) is fatal — the per-occurrence step errors and any
run containing such an occurrence ends in the fatal state — whereas a
reference with no resolution candidates, or one whose first candidate's
name has no symbol-table entry, only logs a diagnostic, emits just its
Range, links nothing, and leaves the visit's success unchanged (ok-ness of
a visit does not depend on its reference list at all). -/
theorem C4_failure_semantics :
    (∀ (doc : Nat) (st : Table) (c : Nat) (d : DefOcc), derivedName d = "" →
      processDef doc st c d = .error (c + 1)) ∧
    (∀ (root : String) (files : List SourceFile) (c0 : Nat),
      (∃ f ∈ files, ∃ d ∈ f.defs, derivedName d = "") →
      ∃ recs logs c1, indexRun root files c0 = RunResult.fatal recs logs c1) ∧
    (∀ (doc : Nat) (st : Table) (c : Nat) (r : RefOcc), r.candidates = [] →
      (processRef doc st c r).logs = ["No definitions found"] ∧
      (processRef doc st c r).recs = [Record.range c r.span.start r.span.stop doc] ∧
      (processRef doc st c r).link = none) ∧
    (∀ (doc : Nat) (st : Table) (c : Nat) (r : RefOcc) (cand : Candidate)
      (rest : List Candidate) (fn : String),
      r.candidates = cand :: rest → cand.fullName = some fn → stLookup st fn = none →
      (processRef doc st c r).logs = ["SKIPPING"] ∧
      (processRef doc st c r).recs = [Record.range c r.span.start r.span.stop doc] ∧
      (processRef doc st c r).link = none) ∧
    (∀ (cache st : Table) (c : Nat) (p u : String) (ds : List DefOcc)
      (rs rs' : List RefOcc),
      (∃ v, visitFile cache st c ⟨p, u, ds, rs⟩ = Except.ok v) →
      ∃ v, visitFile cache st c ⟨p, u, ds, rs'⟩ = Except.ok v) := by
  refine ⟨?_, ?_, ?_, ?_, ?_⟩
  · intro doc st c d h
    exact (processDef_error_iff doc st c d (c + 1)).mpr ⟨h, rfl⟩
  · intro root files c0 hbad
    rcases hw : visitFiles [] [] (c0 + 1) files with w | w
    · refine ⟨Record.metaData root :: Record.project c0 :: w.recs, w.logs, w.counter, ?_⟩
      simp [indexRun, hw]
    · obtain ⟨f, hf, d, hd, hname⟩ := hbad
      exact absurd hname (visitFiles_ok_names [] [] (c0 + 1) files w hw f hf d hd)
  · intro doc st c r h
    rw [processRef_no_candidates doc st c r h]
    exact ⟨rfl, rfl, rfl⟩
  · intro doc st c r cand rest fn h h2 h3
    rw [processRef_unknown_candidate doc st c r cand rest fn h h2 h3]
    exact ⟨rfl, rfl, rfl⟩
  · rintro cache st c p u ds rs rs' ⟨v, hv⟩
    obtain ⟨q, hdp, -⟩ := visitFile_ok_elim cache st c ⟨p, u, ds, rs⟩ v hv
    exact ⟨_, visitFile_ok_of_defPass cache st c ⟨p, u, ds, rs'⟩ q hdp⟩

/-- Witness for C4: the nameless definition, a run over the unit holding
it, the candidate-free reference, a reference whose candidate is not in
the table, and ok-ness of a visit preserved when its references change. -/
theorem C4_failure_semantics_witness :
    processDef 0 [] 1 dBad = Except.error (1 + 1) ∧
    (∃ recs logs c1, indexRun rootS [fileBad] 1 = RunResult.fatal recs logs c1) ∧
    ((processRef 1 [] 2 rNone).logs = ["No definitions found"] ∧
      (processRef 1 [] 2 rNone).recs =
        [Record.range 2 rNone.span.start rNone.span.stop 1] ∧
      (processRef 1 [] 2 rNone).link = none) ∧
    ((processRef 1 [] 2 rUnknown).logs = ["SKIPPING"] ∧
      (processRef 1 [] 2 rUnknown).recs =
        [Record.range 2 rUnknown.span.start rUnknown.span.stop 1] ∧
      (processRef 1 [] 2 rUnknown).link = none) ∧
    (∃ v, visitFile [] [] 1 ⟨"n.py", "file:///n.py", [], [rNone]⟩ = Except.ok v) :=
  ⟨C4_failure_semantics.1 0 [] 1 dBad rfl,
   C4_failure_semantics.2.1 rootS [fileBad] 1 ⟨fileBad, by simp, dBad, by simp [fileBad], rfl⟩,
   C4_failure_semantics.2.2.1 1 [] 2 rNone rfl,
   C4_failure_semantics.2.2.2.1 1 [] 2 rUnknown ⟨some ("zz")⟩ [] ("zz") rfl rfl rfl,
   C4_failure_semantics.2.2.2.2 [] [] 1 ("n.py") ("file:///n.py") [] [] [rNone] ⟨_, rfl⟩⟩

theorem visitFiles_evs_length (cache st : Table) (c : Nat) (fs : List SourceFile)
    (w : FilesData) (h : visitFiles cache st c fs = .ok w) :
    w.evs.length = (fs.map fun f => f.defs.length).sum := by
  induction fs generalizing cache st c w with
  | nil =>
    simp only [visitFiles, Except.ok.injEq] at h
    subst h
    simp
  | cons f fs ih =>
    rcases hv : visitFile cache st c f with v | v
    · simp [visitFiles, hv] at h
    · rcases hw2 : visitFiles v.cache v.table v.counter fs with w2 | w2
      · simp [visitFiles, hv, hw2] at h
      · simp only [visitFiles, hv, hw2, Except.ok.injEq] at h
        subst h
        obtain ⟨-, -, -, -, -, -, hv7, -, -, -⟩ := visitFile_ok_spec cache st c f v hv
        simp only [List.length_append, List.map_cons, List.sum_cons, hv7,
          ih _ _ _ w2 hw2]

/-- Counterexample to claim C6 as stated: a unit with two definition
occurrences both reporting qualified name `m.a` yields a successful run
whose output holds TWO ResultSet records, although only one distinct
qualified definition name was encountered — `result_set = ResultSetNode()`
runs once per occurrence, before the name is even derived. -/
theorem C6_counterexample :
    ∃ recs logs c evs links,
      indexRun rootS [fileDup] 1 = RunResult.ok recs logs c evs links ∧
      countResultSets recs = 2 ∧ countResultSets recs ≠ 1 ∧
      (evs.map DefEvent.name).dedup = [("m.a")] := by
  refine ⟨_, _, _, _, _, rfl, rfl, by decide, by decide⟩

/-- Claim C6 amended: exactly one ResultSet vertex is created and emitted
per definition OCCURRENCE — so two occurrences reporting the same
qualified name yield two ResultSet records (only the later one stays
reachable through the symbol table, by [C5]). -/
theorem C6_resultset_per_occurrence (root : String) (files : List SourceFile) (c0 : Nat)
    (recs : List Record) (logs : List String) (c : Nat) (evs : List DefEvent)
    (links : List LinkEvent) (h : indexRun root files c0 = RunResult.ok recs logs c evs links) :
    countResultSets recs = (files.map fun f => f.defs.length).sum := by
  obtain ⟨w, hw, hrecs, -, -, hevs, -⟩ :=
    indexRun_ok_elim root files c0 recs logs c evs links h
  obtain ⟨-, -, -, -, -, -, h7⟩ := indexRun_ok_spec root files c0 recs logs c evs links h
  rw [h7, hevs, visitFiles_evs_length [] [] (c0 + 1) files w hw]

/-- Witness for the amended C6 at the duplicate-name unit: two occurrences,
two ResultSet records. -/
theorem C6_resultset_per_occurrence_witness :
    ∃ recs logs c evs links,
      indexRun rootS [fileDup] 1 = RunResult.ok recs logs c evs links ∧
      countResultSets recs = ([fileDup].map fun f => f.defs.length).sum :=
  ⟨_, _, _, _, _, rfl, C6_resultset_per_occurrence rootS [fileDup] 1 _ _ _ _ _ rfl⟩

/-- Counterexample to claim C9 as stated: the id generator is a class-level
attribute of `BaseNode`, never reset by `index`, so a second run in the
same process continues the first run's sequence: on an empty project the
first run allocates 1 and 2, and the second run's first allocated
identifier is 3, not 1, making the two id sequences differ on identical
input. -/
theorem C9_counterexample :
    twoRuns rootS [] =
      (RunResult.ok [Record.metaData rootS, Record.project 1, Record.contains 2 [] 1]
        [] 3 [] [],
       RunResult.ok [Record.metaData rootS, Record.project 3, Record.contains 4 [] 3]
        [] 5 [] []) ∧
    (3 : Nat) ≠ 1 :=
  ⟨rfl, by decide⟩

/-- Claim C9 amended: two successive runs in one process share the
module-level generator — the second run starts exactly at the counter the
first run left behind (at least 3), so its project record carries id `c1`
rather than 1 and identical inputs yield different, shifted id
sequences. -/
theorem C9_amended_shared_generator (root : String) (files : List SourceFile)
    (r1 : List Record) (l1 : List String) (c1 : Nat) (e1 : List DefEvent)
    (li1 : List LinkEvent) (h : indexRun root files 1 = RunResult.ok r1 l1 c1 e1 li1) :
    (twoRuns root files).fst = RunResult.ok r1 l1 c1 e1 li1 ∧
    (twoRuns root files).snd = indexRun root files c1 ∧
    3 ≤ c1 ∧ r1.get? 1 = some (Record.project 1) ∧
    (∀ r2 l2 c2 e2 li2, indexRun root files c1 = RunResult.ok r2 l2 c2 e2 li2 →
      r2.get? 1 = some (Record.project c1) ∧ r1 ≠ r2) := by
  obtain ⟨h1, -, -, h4, -, -, -⟩ := indexRun_ok_spec root files 1 r1 l1 c1 e1 li1 h
  refine ⟨by simp [twoRuns, h], by simp [twoRuns, h], by omega, h4, ?_⟩
  intro r2 l2 c2 e2 li2 h2
  obtain ⟨-, -, -, h42, -, -, -⟩ := indexRun_ok_spec root files c1 r2 l2 c2 e2 li2 h2
  refine ⟨h42, ?_⟩
  intro he
  rw [← he, h4] at h42
  simp only [Option.some.injEq, Record.project.injEq] at h42
  omega

/-! ### Symbol-table provenance: every table entry comes from a define event -/

theorem defPass_table_lookup (doc : Nat) (st : Table) (c : Nat) (ds : List DefOcc)
    (p : PassOut) (h : defPass doc st c ds = .ok p) :
    ∀ n v, stLookup p.table n = some v →
      stLookup st n = some v ∨ (⟨n, v⟩ : DefEvent) ∈ p.evs := by
  induction ds generalizing st c p with
  | nil =>
    simp only [defPass, Except.ok.injEq] at h
    subst h
    exact fun n v hv => Or.inl hv
  | cons d ds ih =>
    rcases hpd : processDef doc st c d with e | o
    · simp [defPass, hpd] at h
    · rcases hq : defPass doc o.table o.counter ds with q | q
      · simp [defPass, hpd, hq] at h
      · simp only [defPass, hpd, hq, Except.ok.injEq] at h
        subst h
        obtain ⟨-, ho⟩ := (processDef_ok_iff doc st c d o).mp hpd
        subst ho
        simp only at hq ⊢
        intro n v hv
        rcases ih _ _ q hq n v hv with hv2 | hv2
        · rw [stLookup_dictInsert] at hv2
          split_ifs at hv2 with hn
          · subst hn
            simp only [Option.some.injEq] at hv2
            subst hv2
            exact Or.inr (by simp)
          · exact Or.inl hv2
        · exact Or.inr (by simp [hv2])

theorem refPass_links_lookup (doc : Nat) (st : Table) (c : Nat) (rs : List RefOcc) :
    ∀ l ∈ (refPass doc st c rs).links, stLookup st l.name = some l.rs := by
  induction rs generalizing c with
  | nil => simp [refPass]
  | cons r rest ih =>
    simp only [refPass]
    intro l hl
    rcases List.mem_append.mp hl with hl | hl
    · rcases processRef_cases doc st c r with ⟨-, -, -, hno⟩ |
        ⟨rsid, fn, -, -, -, hsome, hlk⟩
      · rw [hno] at hl
        simp at hl
      · rw [hsome] at hl
        simp only [Option.toList_some, List.mem_singleton] at hl
        subst hl
        exact hlk
    · exact ih _ l hl

theorem visitFile_links_lookup (cache st : Table) (c : Nat) (f : SourceFile) (v : VisitData)
    (h : visitFile cache st c f = .ok v) :
    (∀ l ∈ v.links, stLookup st l.name = some l.rs ∨ (⟨l.name, l.rs⟩ : DefEvent) ∈ v.evs) ∧
    (∀ n w, stLookup v.table n = some w →
      stLookup st n = some w ∨ (⟨n, w⟩ : DefEvent) ∈ v.evs) := by
  obtain ⟨p, hdp, hv⟩ := visitFile_ok_elim cache st c f v h
  subst hv
  simp only
  constructor
  · intro l hl
    have hlk := refPass_links_lookup (docIdOf cache c f) p.table p.counter f.refs l hl
    exact defPass_table_lookup _ _ _ _ p hdp l.name l.rs hlk
  · intro n w hw
    exact defPass_table_lookup _ _ _ _ p hdp n w hw

theorem visitFiles_links_lookup (cache st : Table) (c : Nat) (fs : List SourceFile)
    (w : FilesData) (h : visitFiles cache st c fs = .ok w) :
    (∀ l ∈ w.links, stLookup st l.name = some l.rs ∨ (⟨l.name, l.rs⟩ : DefEvent) ∈ w.evs) ∧
    (∀ n x, stLookup w.table n = some x →
      stLookup st n = some x ∨ (⟨n, x⟩ : DefEvent) ∈ w.evs) := by
  induction fs generalizing cache st c w with
  | nil =>
    simp only [visitFiles, Except.ok.injEq] at h
    subst h
    exact ⟨by simp, fun n x hx => Or.inl hx⟩
  | cons f fs ih =>
    rcases hv : visitFile cache st c f with v | v
    · simp [visitFiles, hv] at h
    · rcases hw2 : visitFiles v.cache v.table v.counter fs with w2 | w2
      · simp [visitFiles, hv, hw2] at h
      · simp only [visitFiles, hv, hw2, Except.ok.injEq] at h
        subst h
        obtain ⟨hvl, hvt⟩ := visitFile_links_lookup cache st c f v hv
        obtain ⟨hwl, hwt⟩ := ih _ _ _ w2 hw2
        simp only
        constructor
        · intro l hl
          rcases List.mem_append.mp hl with hl | hl
          · rcases hvl l hl with h1 | h1
            · exact Or.inl h1
            · exact Or.inr (List.mem_append_left _ h1)
          · rcases hwl l hl with h1 | h1
            · rcases hvt l.name l.rs h1 with h2 | h2
              · exact Or.inl h2
              · exact Or.inr (List.mem_append_left _ h2)
            · exact Or.inr (List.mem_append_right _ h1)
        · intro n x hx
          rcases hwt n x hx with h1 | h1
          · rcases hvt n x h1 with h2 | h2
            · exact Or.inl h2
            · exact Or.inr (List.mem_append_left _ h2)
          · exact Or.inr (List.mem_append_right _ h1)

/-- In a successful run, every link event (a reference's successful table
lookup) replays a define event: same qualified name, same ResultSet id. -/
theorem indexRun_links_sub (root : String) (files : List SourceFile) (c0 : Nat)
    (recs : List Record) (logs : List String) (c : Nat) (evs : List DefEvent)
    (links : List LinkEvent) (h : indexRun root files c0 = RunResult.ok recs logs c evs links) :
    ∀ l ∈ links, (⟨l.name, l.rs⟩ : DefEvent) ∈ evs := by
  obtain ⟨w, hw, -, -, -, hevs, hlinks⟩ :=
    indexRun_ok_elim root files c0 recs logs c evs links h
  subst hevs hlinks
  intro l hl
  rcases (visitFiles_links_lookup [] [] (c0 + 1) files w hw).1 l hl with h1 | h1
  · simp [stLookup] at h1
  · exact h1

/-! ### Next edges carry the event ResultSet ids -/

theorem defPass_next_mem (doc : Nat) (st : Table) (c : Nat) (ds : List DefOcc)
    (p : PassOut) (h : defPass doc st c ds = .ok p) :
    ∀ e ∈ p.evs, ∃ i rid, Record.next i e.rs rid ∈ p.recs := by
  induction ds generalizing st c p with
  | nil =>
    simp only [defPass, Except.ok.injEq] at h
    subst h
    simp
  | cons d ds ih =>
    rcases hpd : processDef doc st c d with e2 | o
    · simp [defPass, hpd] at h
    · rcases hq : defPass doc o.table o.counter ds with q | q
      · simp [defPass, hpd, hq] at h
      · simp only [defPass, hpd, hq, Except.ok.injEq] at h
        subst h
        obtain ⟨-, ho⟩ := (processDef_ok_iff doc st c d o).mp hpd
        subst ho
        simp only at hq ⊢
        intro e he
        rcases List.mem_cons.mp he with he | he
        · subst he
          exact ⟨c + 2, c + 1, List.mem_append_left _ (by simp [defRecords])⟩
        · obtain ⟨i, rid, hmem⟩ := ih _ _ q hq e he
          exact ⟨i, rid, List.mem_append_right _ hmem⟩

theorem refPass_next_mem (doc : Nat) (st : Table) (c : Nat) (rs : List RefOcc) :
    ∀ l ∈ (refPass doc st c rs).links,
      ∃ i rid, Record.next i l.rs rid ∈ (refPass doc st c rs).recs := by
  induction rs generalizing c with
  | nil => simp [refPass]
  | cons r rest ih =>
    simp only [refPass]
    intro l hl
    rcases List.mem_append.mp hl with hl | hl
    · rcases processRef_cases doc st c r with ⟨-, -, -, hno⟩ |
        ⟨rsid, fn, -, hr, -, hsome, -⟩
      · rw [hno] at hl
        simp at hl
      · rw [hsome] at hl
        simp only [Option.toList_some, List.mem_singleton] at hl
        subst hl
        refine ⟨c + 1, c, List.mem_append_left _ ?_⟩
        rw [hr]
        simp [linkRecords]
    · obtain ⟨i, rid, hmem⟩ := ih _ l hl
      exact ⟨i, rid, List.mem_append_right _ hmem⟩

theorem visitFile_next_mem (cache st : Table) (c : Nat) (f : SourceFile) (v : VisitData)
    (h : visitFile cache st c f = .ok v) :
    (∀ e ∈ v.evs, ∃ i rid, Record.next i e.rs rid ∈ v.recs) ∧
    (∀ l ∈ v.links, ∃ i rid, Record.next i l.rs rid ∈ v.recs) := by
  obtain ⟨p, hdp, hv⟩ := visitFile_ok_elim cache st c f v h
  subst hv
  simp only
  constructor
  · intro e he
    obtain ⟨i, rid, hmem⟩ := defPass_next_mem _ _ _ _ p hdp e he
    exact ⟨i, rid, by simp [hmem]⟩
  · intro l hl
    obtain ⟨i, rid, hmem⟩ := refPass_next_mem (docIdOf cache c f) p.table p.counter f.refs l hl
    exact ⟨i, rid, by simp [hmem]⟩

theorem visitFiles_next_mem (cache st : Table) (c : Nat) (fs : List SourceFile)
    (w : FilesData) (h : visitFiles cache st c fs = .ok w) :
    (∀ e ∈ w.evs, ∃ i rid, Record.next i e.rs rid ∈ w.recs) ∧
    (∀ l ∈ w.links, ∃ i rid, Record.next i l.rs rid ∈ w.recs) := by
  induction fs generalizing cache st c w with
  | nil =>
    simp only [visitFiles, Except.ok.injEq] at h
    subst h
    simp
  | cons f fs ih =>
    rcases hv : visitFile cache st c f with v | v
    · simp [visitFiles, hv] at h
    · rcases hw2 : visitFiles v.cache v.table v.counter fs with w2 | w2
      · simp [visitFiles, hv, hw2] at h
      · simp only [visitFiles, hv, hw2, Except.ok.injEq] at h
        subst h
        obtain ⟨hv1, hv2⟩ := visitFile_next_mem cache st c f v hv
        obtain ⟨hw1, hw2b⟩ := ih _ _ _ w2 hw2
        simp only
        constructor
        · intro e he
          rcases List.mem_append.mp he with he | he
          · obtain ⟨i, rid, hmem⟩ := hv1 e he
            exact ⟨i, rid, List.mem_append_left _ hmem⟩
          · obtain ⟨i, rid, hmem⟩ := hw1 e he
            exact ⟨i, rid, List.mem_append_right _ hmem⟩
        · intro l hl
          rcases List.mem_append.mp hl with hl | hl
          · obtain ⟨i, rid, hmem⟩ := hv2 l hl
            exact ⟨i, rid, List.mem_append_left _ hmem⟩
          · obtain ⟨i, rid, hmem⟩ := hw2b l hl
            exact ⟨i, rid, List.mem_append_right _ hmem⟩

theorem eq_of_filter_length_one {α : Type} (P : α → Bool) (l : List α)
    (h : (l.filter P).length = 1) (a b : α) (ha : a ∈ l) (hpa : P a = true)
    (hb : b ∈ l) (hpb : P b = true) : a = b := by
  obtain ⟨x, hx⟩ := List.length_eq_one.mp h
  have hax : a ∈ l.filter P := List.mem_filter.mpr ⟨ha, hpa⟩
  have hbx : b ∈ l.filter P := List.mem_filter.mpr ⟨hb, hpb⟩
  rw [hx] at hax hbx
  simp only [List.mem_singleton] at hax hbx
  rw [hax, hbx]

/-- Claim C2: in a successful run, for any qualified name with exactly one
define event, every reference that resolved to that name was linked to the
very ResultSet id the definition registered — and each event's `rs` is
realized as the `inV` of a Next edge in the output (the definition's Next
edge for define events, the reference's Next edge for link events). -/
theorem C2_resultset_sharing (root : String) (files : List SourceFile) (c0 : Nat)
    (recs : List Record) (logs : List String) (c : Nat) (evs : List DefEvent)
    (links : List LinkEvent) (h : indexRun root files c0 = RunResult.ok recs logs c evs links) :
    (∀ n : String, (evs.filter fun e => e.name == n).length = 1 →
      ∀ e ∈ evs, e.name = n → ∀ l ∈ links, l.name = n → l.rs = e.rs) ∧
    (∀ e ∈ evs, ∃ i rid, Record.next i e.rs rid ∈ recs) ∧
    (∀ l ∈ links, ∃ i rid, Record.next i l.rs rid ∈ recs) := by
  obtain ⟨w, hw, hrecs, -, -, hevs, hlinks⟩ :=
    indexRun_ok_elim root files c0 recs logs c evs links h
  have hnm := visitFiles_next_mem [] [] (c0 + 1) files w hw
  refine ⟨?_, ?_, ?_⟩
  · intro n hone e he hen l hl hln
    have hmem := indexRun_links_sub root files c0 recs logs c evs links h l hl
    have heq : e = (⟨l.name, l.rs⟩ : DefEvent) :=
      eq_of_filter_length_one (fun e2 => e2.name == n) evs hone e ⟨l.name, l.rs⟩ he
        (by simp [hen]) hmem (by simp [hln])
    rw [heq]
  · intro e he
    rw [hevs] at he
    obtain ⟨i, rid, hmem⟩ := hnm.1 e he
    exact ⟨i, rid, by rw [hrecs]; simp [hmem]⟩
  · intro l hl
    rw [hlinks] at hl
    obtain ⟨i, rid, hmem⟩ := hnm.2 l hl
    exact ⟨i, rid, by rw [hrecs]; simp [hmem]⟩

/-- Witness for C2: one unit defining `m.a` once, with one resolving
reference. -/
theorem C2_resultset_sharing_witness :
    ∃ recs logs c evs links,
      indexRun rootS [fileA] 1 = RunResult.ok recs logs c evs links ∧
      (evs.filter fun e => e.name == ("m.a")).length = 1 ∧
      (∀ e ∈ evs, e.name = ("m.a") → ∀ l ∈ links, l.name = ("m.a") → l.rs = e.rs) ∧
      (∀ e ∈ evs, ∃ i rid, Record.next i e.rs rid ∈ recs) ∧
      (∀ l ∈ links, ∃ i rid, Record.next i l.rs rid ∈ recs) := by
  have hc := C2_resultset_sharing rootS [fileA] 1 _ _ _ _ _ rfl
  exact ⟨_, _, _, _, _, rfl, by decide, hc.1 ("m.a") (by decide), hc.2.1, hc.2.2⟩

/-! ### Backward references: every edge mentions only already-emitted ids -/

/-- `LinkedAfter base recs` holds when every record of `recs` mentions only
ids of `base` or of records emitted earlier within `recs`. -/
def LinkedAfter : List Nat → List Record → Prop
  | _, [] => True
  | base, r :: rest =>
    (∀ i ∈ Record.mentions r, i ∈ base) ∧
    LinkedAfter (base ++ (Record.idOf r).toList) rest

theorem idsOf_cons (r : Record) (l : List Record) :
    idsOf (r :: l) = (Record.idOf r).toList ++ idsOf l := by
  cases h : Record.idOf r <;> simp [idsOf, h]

theorem linkedAfter_mono (base base2 : List Nat) (l : List Record)
    (hsub : ∀ i ∈ base, i ∈ base2) (h : LinkedAfter base l) : LinkedAfter base2 l := by
  induction l generalizing base base2 with
  | nil => trivial
  | cons r rest ih =>
    obtain ⟨h1, h2⟩ := h
    refine ⟨fun i hi => hsub i (h1 i hi), ih _ _ ?_ h2⟩
    intro i hi
    rcases List.mem_append.mp hi with hi | hi
    · exact List.mem_append_left _ (hsub i hi)
    · exact List.mem_append_right _ hi

theorem linkedAfter_append (base : List Nat) (xs ys : List Record)
    (hx : LinkedAfter base xs) (hy : LinkedAfter (base ++ idsOf xs) ys) :
    LinkedAfter base (xs ++ ys) := by
  induction xs generalizing base with
  | nil =>
    refine linkedAfter_mono _ _ _ ?_ hy
    intro i hi
    simpa [idsOf] using hi
  | cons r rest ih =>
    obtain ⟨h1, h2⟩ := hx
    refine ⟨h1, ih _ h2 (linkedAfter_mono _ _ _ ?_ hy)⟩
    intro i hi
    rw [idsOf_cons] at hi
    simp only [List.mem_append] at hi ⊢
    tauto

theorem linkedAfter_elim (base : List Nat) (pre : List Record) (e : Record)
    (post : List Record) (h : LinkedAfter base (pre ++ e :: post)) :
    ∀ i ∈ Record.mentions e, i ∈ base ++ idsOf pre := by
  induction pre generalizing base with
  | nil =>
    intro i hi
    have := h.1 i hi
    simpa [idsOf] using this
  | cons r rest ih =>
    obtain ⟨-, h2⟩ := h
    intro i hi
    have := ih _ h2 i hi
    rw [idsOf_cons]
    simp only [List.mem_append] at this ⊢
    tauto

theorem mem_idsOf_of_mem_rangeIds (recs : List Record) (x : Nat)
    (h : x ∈ rangeIds recs) : x ∈ idsOf recs := by
  induction recs with
  | nil => simp [rangeIds, idsOf] at h
  | cons r rest ih =>
    rw [idsOf_cons]
    cases r with
    | range i s e d =>
      simp only [rangeIds, List.filterMap_cons] at h
      simp only [List.mem_cons] at h
      rcases h with h | h
      · subst h
        simp [Record.idOf]
      · exact List.mem_append_right _ (ih h)
    | metaData a => exact List.mem_append_right _ (ih (by simpa [rangeIds] using h))
    | project a => exact List.mem_append_right _ (ih (by simpa [rangeIds] using h))
    | document a b => exact List.mem_append_right _ (ih (by simpa [rangeIds] using h))
    | resultSet a => exact List.mem_append_right _ (ih (by simpa [rangeIds] using h))
    | hoverResult a b => exact List.mem_append_right _ (ih (by simpa [rangeIds] using h))
    | definitionResult a => exact List.mem_append_right _ (ih (by simpa [rangeIds] using h))
    | referenceResult a => exact List.mem_append_right _ (ih (by simpa [rangeIds] using h))
    | next a b cc => exact List.mem_append_right _ (ih (by simpa [rangeIds] using h))
    | hoverEdge a b cc => exact List.mem_append_right _ (ih (by simpa [rangeIds] using h))
    | definitionEdge a b cc => exact List.mem_append_right _ (ih (by simpa [rangeIds] using h))
    | referencesEdge a b cc => exact List.mem_append_right _ (ih (by simpa [rangeIds] using h))
    | item a b cc d => exact List.mem_append_right _ (ih (by simpa [rangeIds] using h))
    | contains a b cc => exact List.mem_append_right _ (ih (by simpa [rangeIds] using h))

theorem linked_defRecords (doc c : Nat) (d : DefOcc) (base : List Nat)
    (hdoc : doc ∈ base) : LinkedAfter base (defRecords doc c d) := by
  simp only [defRecords, LinkedAfter, Record.mentions, Record.idOf, Option.toList_some]
  refine ⟨by simp, by simp, ?_, by simp, ?_, by simp, ?_, ?_, trivial⟩
  · intro i hi
    simp only [List.mem_cons, List.not_mem_nil, or_false] at hi
    rcases hi with h | h <;> subst h <;> simp [List.mem_append]
  · intro i hi
    simp only [List.mem_cons, List.not_mem_nil, or_false] at hi
    rcases hi with h | h <;> subst h <;> simp [List.mem_append]
  · intro i hi
    simp only [List.mem_cons, List.not_mem_nil, or_false] at hi
    rcases hi with h | h <;> subst h <;> simp [List.mem_append]
  · intro i hi
    simp only [List.mem_cons, List.not_mem_nil, or_false] at hi
    rcases hi with h | h | h <;> subst h <;> simp [List.mem_append, hdoc]

theorem linked_linkRecords (doc c rs : Nat) (r : RefOcc) (base : List Nat)
    (hdoc : doc ∈ base) (hrs : rs ∈ base) : LinkedAfter base (linkRecords doc c rs r) := by
  simp only [linkRecords, LinkedAfter, Record.mentions, Record.idOf, Option.toList_some]
  refine ⟨by simp, ?_, by simp, ?_, ?_, trivial⟩
  · intro i hi
    simp only [List.mem_cons, List.not_mem_nil, or_false] at hi
    rcases hi with h | h <;> subst h <;> simp [List.mem_append, hrs]
  · intro i hi
    simp only [List.mem_cons, List.not_mem_nil, or_false] at hi
    rcases hi with h | h <;> subst h <;> simp [List.mem_append, hrs]
  · intro i hi
    simp only [List.mem_cons, List.not_mem_nil, or_false] at hi
    rcases hi with h | h | h <;> subst h <;> simp [List.mem_append, hdoc]

theorem linked_defPass (doc : Nat) (st : Table) (c : Nat) (ds : List DefOcc) (p : PassOut)
    (h : defPass doc st c ds = .ok p) (base : List Nat) (hdoc : doc ∈ base)
    (htv : ∀ v ∈ tvals st, v ∈ base) :
    LinkedAfter base p.recs ∧ (∀ v ∈ tvals p.table, v ∈ base ++ idsOf p.recs) := by
  induction ds generalizing st c p base with
  | nil =>
    simp only [defPass, Except.ok.injEq] at h
    subst h
    exact ⟨trivial, fun v hv => List.mem_append_left _ (htv v hv)⟩
  | cons d ds ih =>
    rcases hpd : processDef doc st c d with e | o
    · simp [defPass, hpd] at h
    · rcases hq : defPass doc o.table o.counter ds with q | q
      · simp [defPass, hpd, hq] at h
      · simp only [defPass, hpd, hq, Except.ok.injEq] at h
        subst h
        obtain ⟨-, ho⟩ := (processDef_ok_iff doc st c d o).mp hpd
        subst ho
        simp only at hq ⊢
        have hdoc2 : doc ∈ base ++ idsOf (defRecords doc c d) := List.mem_append_left _ hdoc
        have htv2 : ∀ v ∈ tvals (dictInsert st (derivedName d) c),
            v ∈ base ++ idsOf (defRecords doc c d) := by
          intro v hv
          rcases List.mem_cons.mp (tvals_dictInsert st (derivedName d) c hv) with h1 | h1
          · subst h1
            refine List.mem_append_right _ ?_
            rw [idsOf_defRecords]
            rw [List.mem_range'_1]
            omega
          · exact List.mem_append_left _ (htv v h1)
        obtain ⟨ih1, ih2⟩ := ih _ _ q hq _ hdoc2 htv2
        refine ⟨linkedAfter_append _ _ _ (linked_defRecords doc c d base hdoc) ih1, ?_⟩
        intro v hv
        have hm := ih2 v hv
        rw [idsOf_append]
        simp only [List.mem_append] at hm ⊢
        tauto

theorem linked_refPass (doc : Nat) (st : Table) (c : Nat) (rs : List RefOcc)
    (base : List Nat) (hdoc : doc ∈ base) (htv : ∀ v ∈ tvals st, v ∈ base) :
    LinkedAfter base (refPass doc st c rs).recs := by
  induction rs generalizing c base with
  | nil =>
    simp only [refPass]
    trivial
  | cons r rest ih =>
    simp only [refPass]
    rcases processRef_cases doc st c r with ⟨-, hr, -, -⟩ | ⟨rsid, fn, -, hr, -, -, hlk⟩
    · rw [hr]
      refine linkedAfter_append _ _ _ ⟨by simp [Record.mentions], trivial⟩ ?_
      exact ih _ _ (List.mem_append_left _ hdoc)
        (fun v hv => List.mem_append_left _ (htv v hv))
    · rw [hr]
      refine linkedAfter_append _ _ _
        (linked_linkRecords doc c rsid r base hdoc
          (htv rsid (stLookup_mem_tvals st fn rsid hlk))) ?_
      exact ih _ _ (List.mem_append_left _ hdoc)
        (fun v hv => List.mem_append_left _ (htv v hv))

theorem linked_visitFile (cache st : Table) (c : Nat) (f : SourceFile) (v : VisitData)
    (h : visitFile cache st c f = .ok v) (base : List Nat)
    (htv : ∀ x ∈ tvals st, x ∈ base) (hcv : ∀ x ∈ tvals cache, x ∈ base) :
    LinkedAfter base v.recs ∧
    (∀ x ∈ tvals v.table, x ∈ base ++ idsOf v.recs) ∧
    (∀ x ∈ tvals v.cache, x ∈ base ++ idsOf v.recs) ∧
    v.docId ∈ base ++ idsOf v.recs := by
  obtain ⟨p, hdp, hv⟩ := visitFile_ok_elim cache st c f v h
  subst hv
  simp only
  have hdocmem : docIdOf cache c f ∈ base ++ idsOf (docRecsOf cache c f) := by
    cases hlk : stLookup cache f.path with
    | none => simp [docIdOf, docRecsOf, hlk, idsOf, Record.idOf]
    | some i =>
      simp only [docIdOf, docRecsOf, hlk]
      exact List.mem_append_left _ (hcv i (stLookup_mem_tvals cache f.path i hlk))
  have hlinkedDoc : LinkedAfter base (docRecsOf cache c f) := by
    cases hlk : stLookup cache f.path with
    | none =>
      rw [show docRecsOf cache c f = [Record.document c f.uri] from by
        simp [docRecsOf, hlk]]
      exact ⟨by simp [Record.mentions], trivial⟩
    | some i =>
      rw [show docRecsOf cache c f = [] from by simp [docRecsOf, hlk]]
      trivial
  obtain ⟨hp1, hp2⟩ := linked_defPass (docIdOf cache c f) st (cAfterDoc cache c f) f.defs p
    hdp (base ++ idsOf (docRecsOf cache c f)) hdocmem
    (fun x hx => List.mem_append_left _ (htv x hx))
  have hq1 := linked_refPass (docIdOf cache c f) p.table p.counter f.refs
    (base ++ idsOf (docRecsOf cache c f) ++ idsOf p.recs)
    (List.mem_append_left _ hdocmem) hp2
  have hpr : rangeIds p.recs = p.ranges := (defPass_ok_spec _ _ _ _ p hdp).2.2.1
  have hqr : rangeIds (refPass (docIdOf cache c f) p.table p.counter f.refs).recs =
      (refPass (docIdOf cache c f) p.table p.counter f.refs).ranges :=
    (refPass_spec (docIdOf cache c f) p.table p.counter f.refs).2.2.1
  have hcont : LinkedAfter (base ++ idsOf (docRecsOf cache c f) ++ idsOf p.recs ++
      idsOf (refPass (docIdOf cache c f) p.table p.counter f.refs).recs)
      [Record.contains (refPass (docIdOf cache c f) p.table p.counter f.refs).counter
        (p.ranges ++ (refPass (docIdOf cache c f) p.table p.counter f.refs).ranges)
        (docIdOf cache c f)] := by
    refine ⟨?_, trivial⟩
    intro i hi
    simp only [Record.mentions, List.mem_cons] at hi
    rcases hi with h1 | h1
    · subst h1
      simp only [List.mem_append] at hdocmem ⊢
      tauto
    · rcases List.mem_append.mp h1 with h2 | h2
      · have hm : i ∈ idsOf p.recs :=
          mem_idsOf_of_mem_rangeIds _ _ (by rw [hpr]; exact h2)
        simp only [List.mem_append]
        tauto
      · have hm : i ∈ idsOf (refPass (docIdOf cache c f) p.table p.counter f.refs).recs :=
          mem_idsOf_of_mem_rangeIds _ _ (by rw [hqr]; exact h2)
        simp only [List.mem_append]
        tauto
  have hbig : LinkedAfter base (docRecsOf cache c f ++ (p.recs ++
      ((refPass (docIdOf cache c f) p.table p.counter f.refs).recs ++
        [Record.contains (refPass (docIdOf cache c f) p.table p.counter f.refs).counter
          (p.ranges ++ (refPass (docIdOf cache c f) p.table p.counter f.refs).ranges)
          (docIdOf cache c f)]))) := by
    refine linkedAfter_append _ _ _ hlinkedDoc ?_
    refine linkedAfter_append _ _ _ hp1 ?_
    refine linkedAfter_append _ _ _ ?_ ?_
    · exact linkedAfter_mono _ _ _ (by intro i hi; simpa [List.mem_append] using hi) hq1
    · exact linkedAfter_mono _ _ _ (by intro i hi; simpa [List.mem_append] using hi) hcont
  refine ⟨by simpa [List.append_assoc] using hbig, ?_, ?_, ?_⟩
  · intro x hx
    have hm := hp2 x hx
    simp only [idsOf_append, List.mem_append] at hm ⊢
    tauto
  · intro x hx
    rcases List.mem_cons.mp (tvals_dictInsert cache f.path (docIdOf cache c f) hx) with
      h1 | h1
    · subst h1
      simp only [List.mem_append] at hdocmem ⊢
      simp only [idsOf_append, List.mem_append]
      tauto
    · exact List.mem_append_left _ (hcv x h1)
  · simp only [List.mem_append] at hdocmem ⊢
    simp only [idsOf_append, List.mem_append]
    tauto

theorem linked_visitFiles (cache st : Table) (c : Nat) (fs : List SourceFile) (w : FilesData)
    (h : visitFiles cache st c fs = .ok w) (base : List Nat)
    (htv : ∀ x ∈ tvals st, x ∈ base) (hcv : ∀ x ∈ tvals cache, x ∈ base) :
    LinkedAfter base w.recs ∧ (∀ x ∈ w.docIds, x ∈ base ++ idsOf w.recs) := by
  induction fs generalizing cache st c w base with
  | nil =>
    simp only [visitFiles, Except.ok.injEq] at h
    subst h
    exact ⟨trivial, by simp⟩
  | cons f fs ih =>
    rcases hv : visitFile cache st c f with v | v
    · simp [visitFiles, hv] at h
    · rcases hw2 : visitFiles v.cache v.table v.counter fs with w2 | w2
      · simp [visitFiles, hv, hw2] at h
      · simp only [visitFiles, hv, hw2, Except.ok.injEq] at h
        subst h
        obtain ⟨hv1, hv2, hv3, hv4⟩ := linked_visitFile cache st c f v hv base htv hcv
        obtain ⟨hw1, hwd⟩ := ih _ _ _ w2 hw2 (base ++ idsOf v.recs) hv2 hv3
        simp only
        refine ⟨linkedAfter_append _ _ _ hv1 hw1, ?_⟩
        intro x hx
        simp only [idsOf_append, List.mem_append]
        rcases List.mem_cons.mp hx with hx | hx
        · subst hx
          simp only [List.mem_append] at hv4
          tauto
        · have hm := hwd x hx
          simp only [List.mem_append] at hm
          tauto

/-- Claim C8: in every successful run, every record of the trace — in
particular every edge, Contains edges included — mentions only ids of
records emitted strictly earlier on the sink (and hence only ids already
allocated when the edge is written). -/
theorem C8_backward_references (root : String) (files : List SourceFile) (c0 : Nat)
    (recs : List Record) (logs : List String) (c : Nat) (evs : List DefEvent)
    (links : List LinkEvent) (h : indexRun root files c0 = RunResult.ok recs logs c evs links) :
    ∀ pre e post, recs = pre ++ e :: post → ∀ i ∈ Record.mentions e, i ∈ idsOf pre := by
  obtain ⟨w, hw, hrecs, -, -, -, -⟩ := indexRun_ok_elim root files c0 recs logs c evs links h
  obtain ⟨hw1, hwd⟩ := linked_visitFiles [] [] (c0 + 1) files w hw [c0]
    (by simp [tvals]) (by simp [tvals])
  have hLinked : LinkedAfter [] recs := by
    rw [hrecs]
    simp only [LinkedAfter, Record.mentions, Record.idOf, Option.toList_none,
      Option.toList_some, List.append_nil, List.nil_append, List.not_mem_nil]
    refine ⟨by simp, by simp, ?_⟩
    refine linkedAfter_append _ _ _ hw1 ?_
    refine ⟨?_, trivial⟩
    intro i hi
    simp only [Record.mentions, List.mem_cons] at hi
    rcases hi with h1 | h1
    · subst h1
      simp
    · have hm := hwd i h1
      simp only [List.mem_append] at hm ⊢
      tauto
  intro pre e post hdec i hi
  have hm := linkedAfter_elim [] pre e post (by rw [← hdec]; exact hLinked) i hi
  simpa using hm

/-- Witness for C8: the run over a unit holding one definition and one
resolving reference. -/
theorem C8_backward_references_witness :
    ∃ recs logs c evs links,
      indexRun rootS [fileA] 1 = RunResult.ok recs logs c evs links ∧
      (∀ pre e post, recs = pre ++ e :: post → ∀ i ∈ Record.mentions e, i ∈ idsOf pre) :=
  ⟨_, _, _, _, _, rfl, C8_backward_references rootS [fileA] 1 _ _ _ _ _ rfl⟩

/-- Witness for the amended C9 on a one-unit project. -/
theorem C9_amended_shared_generator_witness :
    ∃ r1 l1 c1 e1 li1, indexRun rootS [fileA] 1 = RunResult.ok r1 l1 c1 e1 li1 ∧
      ((twoRuns rootS [fileA]).fst = RunResult.ok r1 l1 c1 e1 li1 ∧
      (twoRuns rootS [fileA]).snd = indexRun rootS [fileA] c1 ∧
      3 ≤ c1 ∧ r1.get? 1 = some (Record.project 1) ∧
      (∀ r2 l2 c2 e2 li2, indexRun rootS [fileA] c1 = RunResult.ok r2 l2 c2 e2 li2 →
        r2.get? 1 = some (Record.project c1) ∧ r1 ≠ r2)) :=
  ⟨_, _, _, _, _, rfl, C9_amended_shared_generator rootS [fileA] _ _ _ _ _ rfl⟩

end Lsif
